import Mathlib

/-!
Verification of the Ecomm-Project catalog and search engine.

The JavaScript sources are shallowly embedded: strings are lists of Unicode
code points (`LC`), JS numbers used for scores and prices are modelled as
exact rationals, integer fields as `Int`/`Nat`, JS objects used as maps as
association lists with overwrite-in-place semantics, and `fetch` results as
an explicit environment of `Except` values.  Case mapping is modelled at the
ASCII-simple level.
-/

namespace Ecomm

/-- Strings as lists of Unicode code points. -/
abbrev LC := List Nat

/-- Model of the JS whitespace class (`\s`, `trim`): ASCII whitespace,
NBSP and the BOM. -/
def isWS (c : Nat) : Bool :=
  c = 9 || c = 10 || c = 11 || c = 12 || c = 13 || c = 32 || c = 160 || c = 65279

/-- ASCII-simple model of `String.prototype.toUpperCase`, per code point. -/
def upC (c : Nat) : Nat := if 97 ≤ c ∧ c ≤ 122 then c - 32 else c

/-- ASCII-simple model of `String.prototype.toLowerCase`, per code point. -/
def lowC (c : Nat) : Nat := if 65 ≤ c ∧ c ≤ 90 then c + 32 else c

/-- Drop trailing whitespace (the right half of `String.prototype.trim`). -/
def dropEndWS (l : LC) : LC := (l.reverse.dropWhile isWS).reverse

/-- Model of `String.prototype.trim`. -/
def trimL (l : LC) : LC := dropEndWS (l.dropWhile isWS)

/-- part_000 `norm`: `String(s || "").trim().toLowerCase()`. -/
def normL (s : LC) : LC := (trimL s).map lowC

/-- Code points removed by search.js `key`'s `replace(/[\s\-_]/g, '')`. -/
def keep (c : Nat) : Bool := !(isWS c || c = 45 || c = 95)

/-- search.js `key`: `String(s || '').toUpperCase().replace(/[\s\-_]/g,'').trim()`. -/
def key (s : LC) : LC := trimL ((s.map upC).filter keep)

/-! ## Levenshtein distance

`editDistance` is the iterative rolling-array dynamic program of search.js;
`lev` is its value-level recursion (the JS short-circuits the min when the
heads match, exactly as `lev` does); `specLev` is the textbook cost-1
insert/delete/substitute distance.  All three are proved equal below. -/

/-- Value computed by the JS `editDistance` dynamic program, written as the
front recursion the DP cells satisfy (with the head-equality short circuit
used by the JS inner loop). -/
def lev : LC → LC → Nat
  | [], b => b.length
  | a, [] => a.length
  | x :: xs, y :: ys =>
    if x = y then lev xs ys
    else 1 + min (lev xs ys) (min (lev xs (y :: ys)) (lev (x :: xs) ys))
termination_by a b => a.length + b.length
decreasing_by all_goals simp +arith [List.length]

/-- Textbook single-character insert/delete/substitute cost-1 Levenshtein
distance (substitution cost 0 on equal characters). -/
def specLev : LC → LC → Nat
  | [], b => b.length
  | a, [] => a.length
  | x :: xs, y :: ys =>
    min ((if x = y then 0 else 1) + specLev xs ys)
      (min (1 + specLev xs (y :: ys)) (1 + specLev (x :: xs) ys))
termination_by a b => a.length + b.length
decreasing_by all_goals simp +arith [List.length]

/-- Inner loop (`for j`) of the JS `editDistance`: walks the remaining
characters of `b` together with the remaining old-row cells, carrying the
diagonal (`prev`) and the freshly written cell to its left. -/
def levInner (c : Nat) : Nat → Nat → LC → List Nat → List Nat
  | diag, left, y :: ys, u :: us =>
    let cur := if c = y then diag else 1 + min (min diag u) left
    cur :: levInner c u cur ys us
  | _, _, _, _ => []

/-- One outer-loop iteration (`for i`) of the JS `editDistance`:
`dp[0] = i` then the inner loop. -/
def nextRow (c : Nat) (b : LC) (row : List Nat) : List Nat :=
  match row with
  | [] => []
  | p0 :: rest => (p0 + 1) :: levInner c p0 (p0 + 1) b rest

/-- search.js `editDistance(a, b)`: the iterative O(mn) Levenshtein DP with a
rolling one-dimensional array (early return when either string is empty). -/
def editDistance (a b : LC) : Nat :=
  if a.length = 0 then b.length
  else if b.length = 0 then a.length
  else (a.foldl (fun row c => nextRow c b row) (List.range (b.length + 1))).getLastD 0

/-! ## Scoring (search.js) -/

/-- search.js `score(qKey, hayRaw)`: exact / prefix / substring / damped
edit-distance similarity. -/
def score (qKey hayRaw : LC) : ℚ :=
  let hayKey := key hayRaw
  if hayKey = [] then 0
  else if hayKey = qKey then 1
  else if qKey.isPrefixOf hayKey then (97 / 100) * ((qKey.length : ℚ) / (hayKey.length : ℚ))
  else if qKey <:+: hayKey then (9 / 10) * ((qKey.length : ℚ) / (hayKey.length : ℚ))
  else (1 - (editDistance qKey hayKey : ℚ) / (max qKey.length hayKey.length : ℚ)) * (85 / 100)

/-- search.js `scoreLoose(qKey, text)`: loose variant used on free-text
fields. -/
def scoreLoose (qKey text : LC) : ℚ :=
  let hay := key text
  if hay = [] then 0
  else if qKey <:+: hay then (22 / 25) * ((qKey.length : ℚ) / (max hay.length qKey.length : ℚ))
  else (1 - (editDistance qKey hay : ℚ) / (max qKey.length hay.length : ℚ)) * (3 / 4)

/-! ## Field normalizers (part_000) -/

/-- ASCII digit test. -/
def isDigitC (c : Nat) : Bool := 48 ≤ c && c ≤ 57

/-- Value of a list of ASCII digit code points. -/
def digitsVal (l : LC) : Nat := l.foldl (fun acc c => acc * 10 + (c - 48)) 0

/-- JS `Number()` restricted to strings of digits and dots (the only inputs
it receives in `parseMoneyUSD` after stripping): `NaN` (here `none`) when
there is more than one dot or no digit at all. -/
def numOfStripped (s : LC) : Option ℚ :=
  if s = [] then some 0
  else if 2 ≤ s.count 46 then none
  else if s.all (fun c => c = 46) then none
  else
    let ip := s.takeWhile (fun c => c ≠ 46)
    let fp := (s.dropWhile (fun c => c ≠ 46)).drop 1
    some ((digitsVal ip : ℚ) + (digitsVal fp : ℚ) / ((10 : ℚ) ^ fp.length))

/-- JS `Math.round`: half rounds toward positive infinity. -/
def jsRound (q : ℚ) : ℤ := ⌊q + 1 / 2⌋

/-- part_000 `parseMoneyUSD`: strip `[^0-9.]`, `Number`, clamp to
`[0, 999.99]`, round to cents; `null` when nothing parseable remains. -/
def parseMoneyUSD (v : LC) : Option ℚ :=
  let s := v.filter (fun c => isDigitC c || c = 46)
  if s = [] then none
  else
    match numOfStripped s with
    | none => none
    | some n =>
      let n1 := if n < 0 then 0 else n
      let n2 := if (99999 / 100 : ℚ) < n1 then 99999 / 100 else n1
      some ((jsRound (n2 * 100) : ℚ) / 100)

/-- Leading decimal digits of a string, `none` when there are none
(`parseInt` yields `NaN` then). -/
def leadingNat (t : LC) : Option Nat :=
  let ds := t.takeWhile isDigitC
  if ds = [] then none else some (digitsVal ds)

/-- JS `parseInt(·, 10)` on an already-trimmed string. -/
def jsParseInt : LC → Option ℤ
  | 45 :: rest => (leadingNat rest).map (fun n => -(n : ℤ))
  | 43 :: rest => (leadingNat rest).map (fun n => (n : ℤ))
  | t => (leadingNat t).map (fun n => (n : ℤ))

/-- part_000 `toInt`: `parseInt(String(v || "").trim(), 10)`, `null` on `NaN`. -/
def toInt (v : LC) : Option ℤ := jsParseInt (trimL v)

/-! ## Association-list model of JS objects used as maps

JS object property assignment overwrites in place (keeping the original
insertion position) or appends a new key at the end; lookup yields the
stored value or `undefined` (`none`). -/

/-- Property read on a JS object-as-map. -/
def alookup {α : Type} : List (LC × α) → LC → Option α
  | [], _ => none
  | (k2, v) :: rest, k => if k2 = k then some v else alookup rest k

/-- Property write: overwrite in place or append. -/
def aset {α : Type} : List (LC × α) → LC → α → List (LC × α)
  | [], k, v => [(k, v)]
  | (k2, v2) :: rest, k, v => if k2 = k then (k, v) :: rest else (k2, v2) :: aset rest k v

/-- `(m[k] ||= []).push(v)`: append `v` to the list stored at `k`. -/
def apush {α : Type} : List (LC × List α) → LC → α → List (LC × List α)
  | [], k, v => [(k, [v])]
  | (k2, vs) :: rest, k, v =>
    if k2 = k then (k2, vs ++ [v]) :: rest else (k2, vs) :: apush rest k v

/-- `Object.values(...).forEach(list => ...)`: transform every stored value. -/
def mapVals {α : Type} (f : α → α) (m : List (LC × α)) : List (LC × α) :=
  m.map (fun kv => (kv.1, f kv.2))

/-- `Object.values` (insertion order). -/
def avalues {α : Type} (m : List (LC × α)) : List α := m.map (fun kv => kv.2)

/-- JS `a || b` on nullable values (left biased). -/
def orO {α : Type} : Option α → Option α → Option α
  | some x, _ => some x
  | none, b => b

/-! ## Entities (part_000 load, lines 100-134) -/

structure Model where
  id : LC
  brand : LC
  modelNumber : LC
deriving DecidableEq

structure Schematic where
  id : LC
  modelId : LC
  name : LC
  order : ℤ
  image : LC
deriving DecidableEq

structure Link where
  schematicId : LC
  diagramNo : ℤ
  order : ℤ
  partId : LC
deriving DecidableEq

structure Part where
  id : LC
  number : LC
  manufacturer : LC
  name : LC
  description : LC
  productStatus : LC
  inventory : ℤ
  price : Option ℚ
deriving DecidableEq

/-- A parsed CSV record: canonical header key to trimmed cell value. -/
abbrev Record := List (LC × LC)

/-- `r.key || ""`: read a record field, empty when absent. -/
def rget (r : Record) (k : LC) : LC := (alookup r k).getD []

/-- Canonical header names as code-point lists. -/
def kid : LC := [105, 100]
def kbrand : LC := [98, 114, 97, 110, 100]
def kmodelnumber : LC := [109, 111, 100, 101, 108, 110, 117, 109, 98, 101, 114]
def kmodelid : LC := [109, 111, 100, 101, 108, 105, 100]
def kname : LC := [110, 97, 109, 101]
def korder : LC := [111, 114, 100, 101, 114]
def kimage : LC := [105, 109, 97, 103, 101]
def kschematicid : LC := [115, 99, 104, 101, 109, 97, 116, 105, 99, 105, 100]
def kdiagramno : LC := [100, 105, 97, 103, 114, 97, 109, 110, 111]
def kpartid : LC := [112, 97, 114, 116, 105, 100]
def knumber : LC := [110, 117, 109, 98, 101, 114]
def kmanufacturer : LC := [109, 97, 110, 117, 102, 97, 99, 116, 117, 114, 101, 114]
def kdescription : LC := [100, 101, 115, 99, 114, 105, 112, 116, 105, 111, 110]
def kproductstatus : LC := [112, 114, 111, 100, 117, 99, 116, 115, 116, 97, 116, 117, 115]
def kinventory : LC := [105, 110, 118, 101, 110, 116, 111, 114, 121]
def kprice : LC := [112, 114, 105, 99, 101]

def toModel (r : Record) : Model :=
  { id := trimL (rget r kid)
    brand := trimL (rget r kbrand)
    modelNumber := trimL (rget r kmodelnumber) }

def toSchematic (r : Record) : Schematic :=
  { id := trimL (rget r kid)
    modelId := trimL (rget r kmodelid)
    name := trimL (rget r kname)
    order := (toInt (rget r korder)).getD 0
    image := trimL (rget r kimage) }

def toLink (r : Record) : Link :=
  { schematicId := trimL (rget r kschematicid)
    diagramNo := (toInt (rget r kdiagramno)).getD 0
    order := (toInt (rget r korder)).getD 0
    partId := trimL (rget r kpartid) }

def toPart (r : Record) : Part :=
  { id := trimL (rget r kid)
    number := trimL (if (rget r knumber).isEmpty then rget r kid else rget r knumber)
    manufacturer := trimL (rget r kmanufacturer)
    name := trimL (rget r kname)
    description := trimL (rget r kdescription)
    productStatus := trimL (rget r kproductstatus)
    inventory := (toInt (rget r kinventory)).getD 0
    price := parseMoneyUSD (rget r kprice) }

/-! ## Sort comparators (JS `Array.prototype.sort`, which is stable and
sorts ascending by a numeric comparator) -/

/-- Code-point lexicographic "less or equal", modelling `localeCompare` on
the identifier strings used here (comparator value ≤ 0). -/
def lcLeB : LC → LC → Bool
  | [], _ => true
  | _ :: _, [] => false
  | a :: as, b :: bs => if a < b then true else if b < a then false else lcLeB as bs

/-- Comparator `(a, b) => (a.order - b.order) || a.id.localeCompare(b.id)`
as a "may come before" (comparator ≤ 0) relation. -/
def schemLE (a b : Schematic) : Prop :=
  a.order < b.order ∨ (a.order = b.order ∧ lcLeB a.id b.id = true)

instance : DecidableRel schemLE := fun a b => by unfold schemLE; infer_instance

/-- Comparator `(a.order - b.order) || (a.diagramNo - b.diagramNo) ||
a.partId.localeCompare(b.partId)` as a "may come before" relation. -/
def linkLE (a b : Link) : Prop :=
  a.order < b.order ∨ (a.order = b.order ∧ (a.diagramNo < b.diagramNo ∨
    (a.diagramNo = b.diagramNo ∧ lcLeB a.partId b.partId = true)))

instance : DecidableRel linkLE := fun a b => by unfold linkLE; infer_instance

/-! ## Catalog build (part_000 load, lines 136-193) -/

structure Catalog where
  models : List Model
  schematics : List Schematic
  schematicParts : List Link
  parts : List Part
  modelsById : List (LC × Model)
  modelsByNumber : List (LC × Model)
  schemsById : List (LC × Schematic)
  schemsByModel : List (LC × List Schematic)
  partsById : List (LC × Part)
  partsByIdLower : List (LC × Part)
  partsByNumber : List (LC × Part)
  linkBySchematic : List (LC × List Link)

/-- `modelsById`: `id -> model`, plus the modelNumber as an id alias when
that key is still absent. -/
def buildModelsById (models : List Model) : List (LC × Model) :=
  models.foldl (fun mp m =>
    let mp1 := if !m.id.isEmpty then aset mp m.id m else mp
    if !m.modelNumber.isEmpty ∧ alookup mp1 m.modelNumber = none then
      aset mp1 m.modelNumber m
    else mp1) []

def buildModelsByNumber (models : List Model) : List (LC × Model) :=
  models.foldl (fun mp m =>
    if !m.modelNumber.isEmpty then aset mp (normL m.modelNumber) m else mp) []

/-- part_000 `load` from the four parsed row lists (lines 100-193):
normalize rows into entities, drop rows failing the identifier invariants,
then build all indexes. -/
def loadFromRows (modelsRows schemsRows linksRows partsRows : List Record) : Catalog :=
  let models := (modelsRows.map toModel).filter
    (fun m => !m.id.isEmpty || !m.modelNumber.isEmpty)
  let schematics := (schemsRows.map toSchematic).filter
    (fun s => !s.id.isEmpty && !s.modelId.isEmpty)
  let schematicParts := (linksRows.map toLink).filter
    (fun l => !l.schematicId.isEmpty && !l.partId.isEmpty)
  let parts := (partsRows.map toPart).filter
    (fun p => !p.id.isEmpty || !p.number.isEmpty)
  { models := models
    schematics := schematics
    schematicParts := schematicParts
    parts := parts
    modelsById := buildModelsById models
    modelsByNumber := buildModelsByNumber models
    schemsById := schematics.foldl (fun mp s => aset mp s.id s) []
    schemsByModel := mapVals (List.insertionSort schemLE)
      (schematics.foldl (fun mp s => apush mp s.modelId s) [])
    partsById := parts.foldl (fun mp p => if !p.id.isEmpty then aset mp p.id p else mp) []
    partsByIdLower := parts.foldl
      (fun mp p => if !p.id.isEmpty then aset mp (normL p.id) p else mp) []
    partsByNumber := parts.foldl
      (fun mp p => if !p.number.isEmpty then aset mp (normL p.number) p else mp) []
    linkBySchematic := mapVals (List.insertionSort linkLE)
      (schematicParts.foldl (fun mp l => apush mp l.schematicId l) []) }

/-! ## Public DB helpers (part_000, lines 199-236) -/

def getModelById (db : Catalog) (id : LC) : Option Model := alookup db.modelsById id

def getModelByNumberOrAlias (db : Catalog) (q : LC) : Option Model :=
  alookup db.modelsByNumber (normL q)

def listSchematicsByModelId (db : Catalog) (modelId : LC) : List Schematic :=
  (alookup db.schemsByModel modelId).getD []

def getSchematicById (db : Catalog) (id : LC) : Option Schematic := alookup db.schemsById id

/-- One row of `listPartsForSchematic`'s joined result. -/
structure PartLine where
  diagramNo : ℤ
  order : ℤ
  partId : LC
  part : Option Part
deriving DecidableEq

/-- part_000 `listPartsForSchematic`: the schematic's (sorted) links, each
joined to its resolved part when one exists. -/
def listPartsForSchematic (db : Catalog) (schematicId : LC) : List PartLine :=
  ((alookup db.linkBySchematic schematicId).getD []).map (fun l =>
    { diagramNo := l.diagramNo
      order := l.order
      partId := l.partId
      part := orO (alookup db.partsById l.partId)
        (orO (alookup db.partsByIdLower (normL l.partId))
          (alookup db.partsByNumber (normL l.partId))) })

def getPartByIdOrNumber (db : Catalog) (x : LC) : Option Part :=
  orO (alookup db.partsById x)
    (orO (alookup db.partsByIdLower (normL x)) (alookup db.partsByNumber (normL x)))

/-! ## part_000 runSearch (lines 241-276) -/

inductive Route
  | model (id : LC)
  | part (id : LC)
  | schematic (id : LC)
deriving DecidableEq

inductive P0Outcome
  | noQuery
  | nav (r : Route)
  | alertNoMatch
deriving DecidableEq

/-- part_000 `runSearch` (resolution outcome; `location.href` assignments
become `nav` values carrying the page and its `id` parameter). `load()` is
assumed to have succeeded and produced `db`. -/
def runSearchP0 (db : Catalog) (query : Option LC) : P0Outcome :=
  let q := trimL (query.getD [])
  if q = [] then .noQuery
  else
    let k := normL q
    match alookup db.modelsByNumber k with
    | some model => .nav (.model (if model.modelNumber.isEmpty then model.id else model.modelNumber))
    | none =>
      match orO (alookup db.partsById q)
        (orO (alookup db.partsByIdLower k) (alookup db.partsByNumber k)) with
      | some part => .nav (.part part.id)
      | none =>
        match orO (alookup db.schemsById q)
          ((avalues db.schemsById).find? (fun s => normL s.name == k)) with
        | some s => .nav (.schematic s.id)
        | none => .alertNoMatch

/-! ## CSV parsing (part_000 parseCSV, lines 33-72) -/

def stripBOM (t : LC) : LC :=
  match t with
  | 65279 :: rest => rest
  | _ => t

/-- The character loop of part_000 `parseCSV`: state is (remaining input,
inQuotes, current field, current row, finished rows). -/
def csvChars : LC → Bool → LC → List LC → List (List LC) → List (List LC)
  | [], _, field, row, rows => rows ++ [row ++ [field]]
  | c :: rest, true, field, row, rows =>
    if c = 34 then
      match rest with
      | 34 :: rest2 => csvChars rest2 true (field ++ [34]) row rows
      | other => csvChars other false field row rows
    else csvChars rest true (field ++ [c]) row rows
  | c :: rest, false, field, row, rows =>
    if c = 34 then csvChars rest true field row rows
    else if c = 44 then csvChars rest false [] (row ++ [field]) rows
    else if c = 10 then csvChars rest false [] [] (rows ++ [row ++ [field]])
    else if c = 13 then
      match rest with
      | 10 :: rest2 => csvChars rest2 false [] [] (rows ++ [row ++ [field]])
      | other => csvChars other false [] [] (rows ++ [row ++ [field]])
    else csvChars rest false (field ++ [c]) row rows
termination_by t _ _ _ _ => t.length
decreasing_by all_goals simp +arith

/-- Header canonicalization: lowercase, remove `[\s_]+`. -/
def csvCanonHeader (h : LC) : LC := (h.map lowC).filter (fun c => !(isWS c || c = 95))

/-- Build one record: for each header position, the trimmed cell (empty when
the row is short); duplicate headers overwrite. -/
def buildRec (headers : List LC) (line : List LC) : Record :=
  headers.enum.foldl (fun obj ih => aset obj ih.2 (trimL ((line.get? ih.1).getD []))) []

/-- part_000 `parseCSV`: quote-aware split, trailing all-empty rows dropped,
header row canonicalized into record keys. -/
def parseCSV (text : LC) : List Record :=
  let rows := csvChars (stripBOM text) false [] [] []
  let rows2 := (rows.reverse.dropWhile (fun r => r.all (fun v => v.isEmpty))).reverse
  match rows2 with
  | [] => []
  | hdr :: rest =>
    let headers := hdr.map csvCanonHeader
    rest.map (fun line => buildRec headers line)

/-! ## load with fetch environment and cache (part_000, lines 74-94) -/

structure FetchRes where
  ok : Bool
  status : Nat
  body : LC

structure FetchEnv where
  models : FetchRes
  schematics : FetchRes
  links : FetchRes
  parts : FetchRes

/-- part_000 `fetchText`: throws (`error status`) on a non-ok response. -/
def fetchText (r : FetchRes) : Except Nat LC :=
  if r.ok then .ok r.body else .error r.status

/-- part_000 `load`: returns the cached catalog when present; otherwise all
four sources are fetched (jointly awaited -- any rejection rejects the whole
load and the cache write at the end is never reached), parsed, and the built
catalog is installed as the new cache.  Result is (outcome, cache
afterwards). -/
def load (env : FetchEnv) (cache : Option Catalog) : Except Nat Catalog × Option Catalog :=
  match cache with
  | some c => (.ok c, some c)
  | none =>
    match fetchText env.models, fetchText env.schematics,
      fetchText env.links, fetchText env.parts with
    | .ok mt, .ok st, .ok lt, .ok pt =>
      let cat := loadFromRows (parseCSV mt) (parseCSV st) (parseCSV lt) (parseCSV pt)
      (.ok cat, some cat)
    | .error e, _, _, _ => (.error e, none)
    | _, .error e, _, _ => (.error e, none)
    | _, _, .error e, _ => (.error e, none)
    | _, _, _, .error e => (.error e, none)

/-! ## search.js (fuzzy variant): DB shape, candidates, ranking -/

structure JsModel where
  id : LC
  brand : LC
  modelNumber : LC
deriving DecidableEq

structure JsSchematic where
  id : LC
  modelID : LC
  name : LC
deriving DecidableEq

structure JsPart where
  id : LC
  number : LC
  name : LC
  description : LC
deriving DecidableEq

/-- The search.js `DB` object: entity lists plus the four key-normalized
index maps built by `DB.init`. -/
structure JsDB where
  models : List JsModel
  schematics : List JsSchematic
  parts : List JsPart
  modelByKey : List (LC × JsModel)
  schematicByKey : List (LC × JsSchematic)
  partByIdKey : List (LC × JsPart)
  partByNumberKey : List (LC × JsPart)

structure Candidate where
  score : ℚ
  label : LC
  sub : LC
  route : Route
deriving DecidableEq

structure Limits where
  limitModels : Nat
  limitParts : Nat
  limitSchems : Nat
deriving DecidableEq

def defaultLimits : Limits := ⟨8, 8, 5⟩

structure RankResult where
  models : List Candidate
  parts : List Candidate
  schematics : List Candidate
  uniqueRoute : Option Route
  totalFound : Nat
deriving DecidableEq

/-- The stable descending-by-score order produced by
`sort((a, b) => b.score - a.score)`: `a` may stay before `b`. -/
def descR (a b : Candidate) : Prop := b.score ≤ a.score

instance : DecidableRel descR := fun a b => by unfold descR; infer_instance

/-- `" "`: the single-space separator of the schematic combo text. -/
def spaceC : LC := [32]

/-- `"Model "`: the prefix of a schematic candidate's sub text. -/
def modelSp : LC := [77, 111, 100, 101, 108, 32]

/-- search.js `pickUniqueRoute(models, parts, schems)`: the top is the best
of the three bucket heads, the runner-up the best of the three bucket
*second* entries; auto-route when top ≥ 0.9 and the gap is ≥ 0.12. -/
def pickUniqueRoute (models parts schems : List Candidate) : Option Route :=
  let top? := (List.insertionSort descR ([models.head?, parts.head?, schems.head?].filterMap id)).head?
  let run? := (List.insertionSort descR ([models.get? 1, parts.get? 1, schems.get? 1].filterMap id)).head?
  match top? with
  | none => none
  | some top =>
    let gap := top.score - ((run?.map Candidate.score).getD 0)
    if (9 / 10 : ℚ) ≤ top.score ∧ (3 / 25 : ℚ) ≤ gap then some top.route else none

/-- search.js `findBestCandidates(query, DB, limits)`. -/
def findBestCandidates (query : LC) (db : JsDB) (lim : Limits) : RankResult :=
  let qNorm := key query
  if qNorm = [] then ⟨[], [], [], none, 0⟩
  else
    let scoredModels := db.models.filterMap (fun m =>
      let hay := if m.modelNumber.isEmpty then m.id else m.modelNumber
      let s := score qNorm hay
      if (11 / 20 : ℚ) < s then
        some ⟨s, m.modelNumber, m.brand,
          .model (if m.modelNumber.isEmpty then m.id else m.modelNumber)⟩
      else none)
    let scoredParts := db.parts.filterMap (fun p =>
      let primary := if p.number.isEmpty then p.id else p.number
      let s0 := score qNorm primary
      let s := if s0 < (7 / 10 : ℚ) ∧ (!p.name.isEmpty || !p.description.isEmpty) then
          max s0 ((max (if p.name.isEmpty then 0 else scoreLoose qNorm p.name)
            (if p.description.isEmpty then 0 else scoreLoose qNorm p.description)) * (9 / 10))
        else s0
      if (11 / 20 : ℚ) < s then
        some ⟨s, primary, (if p.name.isEmpty then p.description else p.name), .part primary⟩
      else none)
    let scoredSchems := db.schematics.filterMap (fun s =>
      let combo := s.modelID ++ spaceC ++ s.name ++ spaceC ++ s.id
      let sc := max (score qNorm s.id) (scoreLoose qNorm combo)
      if (3 / 5 : ℚ) < sc then
        some ⟨sc, (if s.name.isEmpty then s.id else s.name),
          (if s.modelID.isEmpty then [] else modelSp ++ s.modelID), .schematic s.id⟩
      else none)
    let models := (List.insertionSort descR scoredModels).take lim.limitModels
    let parts := (List.insertionSort descR scoredParts).take lim.limitParts
    let schematics := (List.insertionSort descR scoredSchems).take lim.limitSchems
    { models := models
      parts := parts
      schematics := schematics
      uniqueRoute := pickUniqueRoute models parts schematics
      totalFound := models.length + parts.length + schematics.length }

inductive JsOutcome
  | noQuery
  | nav (r : Route)
  | suggest (b : RankResult)
deriving DecidableEq

/-- search.js `runSearch` (lines 172-202): exact phase with
model > part > schematic precedence, then the fuzzy ranker with possible
auto-routing, else the suggestions overlay. -/
def runSearchJS (db : JsDB) (rawQuery : Option LC) : JsOutcome :=
  let qRaw := trimL (rawQuery.getD [])
  if qRaw = [] then .noQuery
  else
    let q := key qRaw
    match alookup db.modelByKey q with
    | some model =>
      .nav (.model (if model.modelNumber.isEmpty then model.id else model.modelNumber))
    | none =>
      match orO (alookup db.partByNumberKey q) (alookup db.partByIdKey q) with
      | some part => .nav (.part (if part.number.isEmpty then part.id else part.number))
      | none =>
        match alookup db.schematicByKey q with
        | some schem => .nav (.schematic schem.id)
        | none =>
          let best := findBestCandidates qRaw db defaultLimits
          match best.uniqueRoute with
          | some r => .nav r
          | none => .suggest best

/-! ## Normalization lemmas -/

theorem upC_idem (c : Nat) : upC (upC c) = upC c := by
  unfold upC
  by_cases h : 97 ≤ c ∧ c ≤ 122
  · simp only [if_pos h]
    rw [if_neg]
    omega
  · simp only [if_neg h]

theorem lowC_idem (c : Nat) : lowC (lowC c) = lowC c := by
  unfold lowC
  by_cases h : 65 ≤ c ∧ c ≤ 90
  · simp only [if_pos h]
    rw [if_neg]
    omega
  · simp only [if_neg h]

theorem isWS_upC (c : Nat) : isWS (upC c) = isWS c := by
  rw [Bool.eq_iff_iff]
  by_cases h : 97 ≤ c ∧ c ≤ 122
  · simp only [upC, if_pos h, isWS, Bool.or_eq_true, decide_eq_true_eq]
    omega
  · simp [upC, h]

theorem isWS_lowC (c : Nat) : isWS (lowC c) = isWS c := by
  rw [Bool.eq_iff_iff]
  by_cases h : 65 ≤ c ∧ c ≤ 90
  · simp only [lowC, if_pos h, isWS, Bool.or_eq_true, decide_eq_true_eq]
    omega
  · simp [lowC, h]

theorem keep_upC (c : Nat) : keep (upC c) = keep c := by
  rw [Bool.eq_iff_iff]
  by_cases h : 97 ≤ c ∧ c ≤ 122
  · simp only [upC, if_pos h, keep, isWS, Bool.or_eq_true, decide_eq_true_eq, Bool.not_eq_true',
      Bool.or_eq_false_iff, decide_eq_false_iff_not]
    omega
  · simp [upC, h]

theorem dropWhile_congr2 (p q : Nat → Bool) (h : ∀ c, p c = q c) (l : LC) :
    l.dropWhile p = l.dropWhile q := by
  have hpq : p = q := funext h
  rw [hpq]

theorem filter_congr2 (p q : Nat → Bool) (h : ∀ c, p c = q c) (l : LC) :
    l.filter p = l.filter q := by
  have hpq : p = q := funext h
  rw [hpq]

theorem dropWhile_idem (p : Nat → Bool) (l : LC) :
    (l.dropWhile p).dropWhile p = l.dropWhile p := by
  induction l with
  | nil => rfl
  | cons a l ih =>
    by_cases h : p a
    · simpa [List.dropWhile_cons, h] using ih
    · simp [List.dropWhile_cons, h]

theorem dropEndWS_idem (l : LC) : dropEndWS (dropEndWS l) = dropEndWS l := by
  unfold dropEndWS
  rw [List.reverse_reverse, dropWhile_idem]

theorem dropEndWS_prefix (l : LC) : dropEndWS l <+: l := by
  unfold dropEndWS
  have h : l.reverse.dropWhile isWS <:+ l.reverse := by
    induction l.reverse with
    | nil => exact List.nil_suffix
    | cons a m ih =>
      by_cases h : isWS a
      · rw [List.dropWhile_cons, if_pos h]
        exact ih.trans (List.suffix_cons a m)
      · rw [List.dropWhile_cons, if_neg h]

  have h2 := List.reverse_prefix.mpr ((List.reverse_reverse l) ▸ h)
  simpa using h2

theorem dropWhile_len_le (p : Nat → Bool) (l : LC) : (l.dropWhile p).length ≤ l.length := by
  induction l with
  | nil => simp
  | cons a l ih =>
    by_cases h : p a
    · rw [List.dropWhile_cons, if_pos h]
      exact Nat.le_succ_of_le ih
    · rw [List.dropWhile_cons, if_neg h]

theorem dropWhile_dropEndWS (u : LC) (hu : u.dropWhile isWS = u) :
    (dropEndWS u).dropWhile isWS = dropEndWS u := by
  cases u with
  | nil => rfl
  | cons a u2 =>
    have ha : isWS a = false := by
      by_cases h : isWS a
      · exfalso
        rw [List.dropWhile_cons, if_pos h] at hu
        have hle := dropWhile_len_le isWS u2
        rw [hu] at hle
        simp at hle
      · simpa using h
    rcases hp : dropEndWS (a :: u2) with _ | ⟨b, t⟩
    · rfl
    · have hpre := dropEndWS_prefix (a :: u2)
      rw [hp] at hpre
      obtain ⟨t2, ht2⟩ := hpre
      have hb : b = a := by
        cases ht2
        rfl
      rw [hb, List.dropWhile_cons, if_neg (by simp [ha])]

theorem trimL_idem (l : LC) : trimL (trimL l) = trimL l := by
  unfold trimL
  rw [dropWhile_dropEndWS _ (dropWhile_idem isWS l), dropEndWS_idem]

theorem dropEndWS_map_lowC (u : LC) : dropEndWS (u.map lowC) = (dropEndWS u).map lowC := by
  unfold dropEndWS
  rw [← List.map_reverse, List.dropWhile_map,
    dropWhile_congr2 (isWS ∘ lowC) isWS (fun c => isWS_lowC c), List.map_reverse]

theorem trimL_map_lowC (t : LC) : trimL (t.map lowC) = (trimL t).map lowC := by
  unfold trimL
  rw [List.dropWhile_map, dropWhile_congr2 (isWS ∘ lowC) isWS (fun c => isWS_lowC c),
    dropEndWS_map_lowC]

theorem dropWhile_eq_self_of_noWS (l : LC) (h : ∀ c ∈ l, isWS c = false) :
    l.dropWhile isWS = l := by
  cases l with
  | nil => rfl
  | cons a t =>
    rw [List.dropWhile_cons, if_neg]
    simp [h a (List.mem_cons_self a t)]

theorem dropEndWS_eq_self (l : LC) (h : ∀ c ∈ l, isWS c = false) : dropEndWS l = l := by
  unfold dropEndWS
  rw [dropWhile_eq_self_of_noWS _ (fun c hc => h c (List.mem_reverse.mp hc)),
    List.reverse_reverse]

theorem trimL_eq_self (l : LC) (h : ∀ c ∈ l, isWS c = false) : trimL l = l := by
  unfold trimL
  rw [dropWhile_eq_self_of_noWS l h, dropEndWS_eq_self l h]

/-- C9 helper: the trailing trim in `key` is a no-op because the filter has
already removed every whitespace character. -/
theorem key_eq_filter (s : LC) : key s = ((s.map upC).filter keep) := by
  unfold key
  apply trimL_eq_self
  intro c hc
  have hk := (List.mem_filter.mp hc).2
  simp only [keep, Bool.not_eq_eq_eq_not, Bool.not_true, Bool.or_eq_false_iff,
    decide_eq_false_iff_not] at hk
  exact hk.1.1

theorem key_map_upC (s : LC) : key s = (s.filter keep).map upC := by
  rw [key_eq_filter, List.filter_map, filter_congr2 (keep ∘ upC) keep (fun c => keep_upC c)]

/-- C9: both normalization key functions of the repository are idempotent:
part_000's `norm` (trim, then lowercase) and search.js's `key` (uppercase,
strip whitespace/hyphen/underscore, trim) satisfy `f (f s) = f s` for every
string `s`. -/
theorem c9_normkey_idempotent (s : LC) :
    normL (normL s) = normL s ∧ key (key s) = key s := by
  constructor
  · unfold normL
    rw [trimL_map_lowC, trimL_idem, List.map_map]
    rw [show lowC ∘ lowC = lowC from funext (fun c => lowC_idem c)]
  · rw [key_eq_filter (key s), key_map_upC s, List.map_map]
    rw [show upC ∘ upC = upC from funext (fun c => upC_idem c)]
    rw [List.filter_map, filter_congr2 (keep ∘ upC) keep (fun c => keep_upC c),
      List.filter_filter]
    simp only [Bool.and_self]

/-! ## C10: empty / whitespace-only / missing query is a no-op -/

theorem trimL_eq_nil_of_allWS (l : LC) (h : l.all isWS = true) : trimL l = [] := by
  have h2 : l.dropWhile isWS = [] := by
    induction l with
    | nil => rfl
    | cons a t ih =>
      simp only [List.all_cons, Bool.and_eq_true] at h
      rw [List.dropWhile_cons, if_pos h.1]
      exact ih h.2
  unfold trimL
  rw [h2]
  rfl

/-- C10: a query that is null/undefined, empty, or whitespace-only makes
both `runSearch` implementations return normally with no resolution, no
navigation and no catalog access (the result does not depend on the
catalog at all). -/
theorem c10_empty_query_noop :
    (∀ (db : JsDB) (q : Option LC), (q.getD []).all isWS = true →
      runSearchJS db q = .noQuery)
    ∧ (∀ (db db2 : JsDB) (q : Option LC), (q.getD []).all isWS = true →
      runSearchJS db q = runSearchJS db2 q)
    ∧ (∀ (db : Catalog) (q : Option LC), (q.getD []).all isWS = true →
      runSearchP0 db q = .noQuery)
    ∧ (∀ (db db2 : Catalog) (q : Option LC), (q.getD []).all isWS = true →
      runSearchP0 db q = runSearchP0 db2 q) := by
  have hjs : ∀ (db : JsDB) (q : Option LC), (q.getD []).all isWS = true →
      runSearchJS db q = .noQuery := by
    intro db q h
    unfold runSearchJS
    rw [trimL_eq_nil_of_allWS _ h]
    rfl
  have hp0 : ∀ (db : Catalog) (q : Option LC), (q.getD []).all isWS = true →
      runSearchP0 db q = .noQuery := by
    intro db q h
    unfold runSearchP0
    rw [trimL_eq_nil_of_allWS _ h]
    rfl
  exact ⟨hjs, fun db db2 q h => by rw [hjs db q h, hjs db2 q h],
    hp0, fun db db2 q h => by rw [hp0 db q h, hp0 db2 q h]⟩

/-- Trivial empty catalog/db used to instantiate hypotheses concretely. -/
def cat0 : Catalog := loadFromRows [] [] [] []

def jsDB0 : JsDB := ⟨[], [], [], [], [], [], []⟩

theorem c10_witness :
    runSearchJS jsDB0 (some [32, 9]) = .noQuery ∧ runSearchP0 cat0 none = .noQuery :=
  ⟨c10_empty_query_noop.1 jsDB0 (some [32, 9]) (by decide),
    c10_empty_query_noop.2.2.1 cat0 none (by decide)⟩

/-! ## C1: exact-resolution precedence Model > Part > Schematic -/

/-- C1: in both `runSearch` implementations the exact phase resolves with
strict precedence Model > Part > Schematic.  Whenever the normalized query
hits the model index (search.js keys it by modelNumber *and* by id alias;
part_000 keys it by normalized modelNumber, the only id alias there) and
simultaneously hits the part lookup chain (by number or id), the result is
the model navigation; and whenever it misses the model index but hits both
the part chain and the schematic lookup, the result is the part
navigation. -/
theorem c1_exact_precedence :
    (∀ (db : JsDB) (raw : LC) (m : JsModel) (p : JsPart), trimL raw ≠ [] →
      alookup db.modelByKey (key (trimL raw)) = some m →
      orO (alookup db.partByNumberKey (key (trimL raw)))
        (alookup db.partByIdKey (key (trimL raw))) = some p →
      runSearchJS db (some raw) =
        .nav (.model (if m.modelNumber.isEmpty then m.id else m.modelNumber)))
    ∧ (∀ (db : JsDB) (raw : LC) (p : JsPart) (sc : JsSchematic), trimL raw ≠ [] →
      alookup db.modelByKey (key (trimL raw)) = none →
      orO (alookup db.partByNumberKey (key (trimL raw)))
        (alookup db.partByIdKey (key (trimL raw))) = some p →
      alookup db.schematicByKey (key (trimL raw)) = some sc →
      runSearchJS db (some raw) =
        .nav (.part (if p.number.isEmpty then p.id else p.number)))
    ∧ (∀ (db : Catalog) (q : LC) (m : Model) (p : Part), trimL q ≠ [] →
      alookup db.modelsByNumber (normL (trimL q)) = some m →
      orO (alookup db.partsById (trimL q))
        (orO (alookup db.partsByIdLower (normL (trimL q)))
          (alookup db.partsByNumber (normL (trimL q)))) = some p →
      runSearchP0 db (some q) =
        .nav (.model (if m.modelNumber.isEmpty then m.id else m.modelNumber)))
    ∧ (∀ (db : Catalog) (q : LC) (p : Part) (sc : Schematic), trimL q ≠ [] →
      alookup db.modelsByNumber (normL (trimL q)) = none →
      orO (alookup db.partsById (trimL q))
        (orO (alookup db.partsByIdLower (normL (trimL q)))
          (alookup db.partsByNumber (normL (trimL q)))) = some p →
      orO (alookup db.schemsById (trimL q))
        ((avalues db.schemsById).find? (fun s => normL s.name == normL (trimL q))) = some sc →
      runSearchP0 db (some q) = .nav (.part p.id)) := by
  refine ⟨?_, ?_, ?_, ?_⟩
  · intro db raw m p hne hm hp
    unfold runSearchJS
    simp only [Option.getD_some]
    rw [if_neg hne, hm]
  · intro db raw p sc hne hm hp hs
    unfold runSearchJS
    simp only [Option.getD_some]
    rw [if_neg hne, hm, hp]
  · intro db q m p hne hm hp
    unfold runSearchP0
    simp only [Option.getD_some]
    rw [if_neg hne, hm]
  · intro db q p sc hne hm hp hs
    unfold runSearchP0
    simp only [Option.getD_some]
    rw [if_neg hne, hm, hp]

/-- Concrete single-entry search.js DB: the key `"AB"` is simultaneously a
model key, a part-number key and a schematic key. -/
def jsModel1 : JsModel := ⟨[77, 49], [], [65, 66]⟩

def jsPart1 : JsPart := ⟨[80, 49], [65, 66], [], []⟩

def jsSchem1 : JsSchematic := ⟨[65, 66], [77, 49], []⟩

def jsDB1 : JsDB :=
  ⟨[jsModel1], [jsSchem1], [jsPart1],
    [([65, 66], jsModel1)], [([65, 66], jsSchem1)], [], [([65, 66], jsPart1)]⟩

/-- Same DB without the model index entry. -/
def jsDB2 : JsDB :=
  ⟨[], [jsSchem1], [jsPart1], [], [([65, 66], jsSchem1)], [], [([65, 66], jsPart1)]⟩

def p0Model1 : Model := ⟨[77, 49], [], [65, 66]⟩

def p0Part1 : Part := ⟨[97, 98], [65, 66], [], [], [], [], 0, none⟩

def p0Schem1 : Schematic := ⟨[65, 66], [77, 49], [], 0, []⟩

def p0Cat1 : Catalog :=
  { models := [p0Model1], schematics := [p0Schem1], schematicParts := [], parts := [p0Part1],
    modelsById := [([77, 49], p0Model1)], modelsByNumber := [([97, 98], p0Model1)],
    schemsById := [([65, 66], p0Schem1)], schemsByModel := [], partsById := [],
    partsByIdLower := [([97, 98], p0Part1)], partsByNumber := [], linkBySchematic := [] }

def p0Cat2 : Catalog :=
  { models := [], schematics := [p0Schem1], schematicParts := [], parts := [p0Part1],
    modelsById := [], modelsByNumber := [],
    schemsById := [([65, 66], p0Schem1)], schemsByModel := [], partsById := [],
    partsByIdLower := [([97, 98], p0Part1)], partsByNumber := [], linkBySchematic := [] }

theorem c1_witness :
    runSearchJS jsDB1 (some [65, 66]) = .nav (.model [65, 66])
    ∧ runSearchJS jsDB2 (some [65, 66]) = .nav (.part [65, 66])
    ∧ runSearchP0 p0Cat1 (some [65, 66]) = .nav (.model [65, 66])
    ∧ runSearchP0 p0Cat2 (some [65, 66]) = .nav (.part [97, 98]) :=
  ⟨c1_exact_precedence.1 jsDB1 [65, 66] jsModel1 jsPart1 (by decide) (by decide) (by decide),
    c1_exact_precedence.2.1 jsDB2 [65, 66] jsPart1 jsSchem1 (by decide) (by decide) (by decide)
      (by decide),
    c1_exact_precedence.2.2.1 p0Cat1 [65, 66] p0Model1 p0Part1 (by decide) (by decide)
      (by decide),
    c1_exact_precedence.2.2.2 p0Cat2 [65, 66] p0Part1 p0Schem1 (by decide) (by decide)
      (by decide) (by decide)⟩

/-! ## C8: load failure propagation and atomicity -/

/-- C8: starting from an absent cache, `load` succeeds exactly when all four
fetches succeed; when any fetch fails, the failure propagates to the caller
and no catalog (not even a partial one) is installed in the cache. -/
theorem c8_load_failure_atomicity (env : FetchEnv) :
    (¬(env.models.ok = true ∧ env.schematics.ok = true ∧ env.links.ok = true
        ∧ env.parts.ok = true) →
      ∃ e, load env none = (.error e, none))
    ∧ ((∃ c, (load env none).1 = .ok c) ↔
      (env.models.ok = true ∧ env.schematics.ok = true ∧ env.links.ok = true
        ∧ env.parts.ok = true)) := by
  rcases env with ⟨⟨ok1, st1, b1⟩, ⟨ok2, st2, b2⟩, ⟨ok3, st3, b3⟩, ⟨ok4, st4, b4⟩⟩
  cases ok1 <;> cases ok2 <;> cases ok3 <;> cases ok4 <;>
    simp [load, fetchText]

def envOk : FetchEnv := ⟨⟨true, 200, []⟩, ⟨true, 200, []⟩, ⟨true, 200, []⟩, ⟨true, 200, []⟩⟩

def envBad : FetchEnv := ⟨⟨true, 200, []⟩, ⟨false, 404, []⟩, ⟨true, 200, []⟩, ⟨true, 200, []⟩⟩

theorem c8_witness :
    (∃ e, load envBad none = (.error e, none)) ∧ (∃ c, (load envOk none).1 = .ok c) :=
  ⟨(c8_load_failure_atomicity envBad).1 (by decide),
    (c8_load_failure_atomicity envOk).2.mpr (by decide)⟩

/-! ## C3: bounded currency coercion -/

theorem jsRound_eq (q : ℚ) (z : ℤ) (h1 : (z : ℚ) ≤ q + 1 / 2) (h2 : q + 1 / 2 < z + 1) :
    jsRound q = z := by
  unfold jsRound
  rw [Int.floor_eq_iff]
  exact ⟨h1, h2⟩

/-- C3 counterexample: the minus sign of `"-5"` is stripped together with
all other non-digit characters, so `parseMoneyUSD "-5"` is `5.00`, not the
`0.00` the claim demands. -/
theorem c3_counterexample : parseMoneyUSD [45, 53] = some 5 ∧ (5 : ℚ) ≠ 0 := by
  constructor
  · unfold parseMoneyUSD numOfStripped
    norm_num [isDigitC, digitsVal, List.count, List.takeWhile, List.dropWhile,
      List.filter, jsRound_eq (500 : ℚ) 500 (by norm_num) (by norm_num)]
  · norm_num

/-- C3 (amended): for every input string the coercion strips everything but
digits and dots (in particular any minus sign, so a negative parsed value
can never arise and `"-5"` yields `5.00`); the surviving text is parsed as
a decimal, clamped to at most `999.99`, and rounded to 2 decimal places;
empty or completely unparseable input yields `null`, never `0`.
`"$1,234.56"` clamps to `999.99`. -/
theorem c3_money_amended :
    parseMoneyUSD [36, 49, 44, 50, 51, 52, 46, 53, 54] = some (99999 / 100)
    ∧ parseMoneyUSD [45, 53] = some 5
    ∧ parseMoneyUSD [] = none
    ∧ parseMoneyUSD [120, 33] = none
    ∧ (∀ s : LC, s.filter (fun c => isDigitC c || c = 46) = [] → parseMoneyUSD s = none)
    ∧ (∀ (s : LC) (q : ℚ), parseMoneyUSD s = some q →
        0 ≤ q ∧ q ≤ 99999 / 100 ∧ ∃ z : ℤ, q * 100 = (z : ℚ)) := by
  refine ⟨?_, c3_counterexample.1, rfl, rfl, ?_, ?_⟩
  · have hf : ([36, 49, 44, 50, 51, 52, 46, 53, 54] : LC).filter
        (fun c => isDigitC c || c = 46) = [49, 50, 51, 52, 46, 53, 54] := by decide
    have hn : numOfStripped [49, 50, 51, 52, 46, 53, 54] = some (30864 / 25) := by
      simp only [numOfStripped]
      rw [if_neg (by decide), if_neg (by decide), if_neg (by decide)]
      norm_num [digitsVal, List.takeWhile_cons, List.dropWhile_cons, List.foldl_cons,
        List.foldl_nil]
    simp only [parseMoneyUSD, hf, hn]
    rw [if_neg (by decide : ¬([49, 50, 51, 52, 46, 53, 54] : LC) = [])]
    show some _ = some _
    rw [if_neg (by norm_num : ¬(30864 / 25 : ℚ) < 0),
      if_pos (by norm_num : (99999 / 100 : ℚ) < 30864 / 25),
      jsRound_eq ((99999 : ℚ) / 100 * 100) 99999 (by norm_num) (by norm_num)]
    norm_num
  · intro s h
    unfold parseMoneyUSD
    rw [h]
    rfl
  · intro s q h
    simp only [parseMoneyUSD] at h
    split at h
    · exact absurd h (by simp)
    · split at h
      · exact absurd h (by simp)
      · rename_i n heq
        simp only [Option.some.injEq] at h
        set n1 : ℚ := if n < 0 then 0 else n with hn1
        set n2 : ℚ := if (99999 / 100 : ℚ) < n1 then 99999 / 100 else n1 with hn2
        have h01 : 0 ≤ n1 := by
          rw [hn1]
          split
          · exact le_refl 0
          · rename_i hc
            exact le_of_not_lt hc
        have h02 : 0 ≤ n2 ∧ n2 ≤ 99999 / 100 := by
          rw [hn2]
          split
          · exact ⟨by norm_num, le_refl _⟩
          · rename_i hc
            exact ⟨h01, le_of_not_lt hc⟩
        have hzl : (0 : ℤ) ≤ jsRound (n2 * 100) := by
          unfold jsRound
          apply Int.le_floor.mpr
          have : (0 : ℚ) ≤ n2 * 100 := mul_nonneg h02.1 (by norm_num)
          push_cast
          linarith
        have hzu : jsRound (n2 * 100) ≤ 99999 := by
          unfold jsRound
          have hlt : (n2 * 100 + 1 / 2 : ℚ) < ((100000 : ℤ) : ℚ) := by
            push_cast
            nlinarith [h02.2]
          have := Int.floor_lt.mpr hlt
          omega
        have hc0 : (0 : ℚ) ≤ (jsRound (n2 * 100) : ℚ) := by exact_mod_cast hzl
        have hc1 : ((jsRound (n2 * 100) : ℤ) : ℚ) ≤ 99999 := by exact_mod_cast hzu
        refine ⟨?_, ?_, ⟨jsRound (n2 * 100), ?_⟩⟩
        · rw [← h]
          positivity
        · rw [← h]
          linarith
        · rw [← h]
          field_simp

theorem c3_witness :
    ((0 : ℚ) ≤ 5 ∧ (5 : ℚ) ≤ 99999 / 100 ∧ ∃ z : ℤ, (5 : ℚ) * 100 = (z : ℚ))
    ∧ parseMoneyUSD [] = none :=
  ⟨c3_money_amended.2.2.2.2.2 [45, 53] 5 c3_money_amended.2.1,
    c3_money_amended.2.2.2.2.1 [] rfl⟩

/-! ## C5: concrete score values -/

/-- C5 counterexample: the prefix case `score("ABC12", "ABC123")` is
`0.97 x (5/6) = 97/120 < 0.9`, refuting the claimed bound `≥ 0.9`. -/
theorem c5_counterexample :
    ¬ (9 / 10 : ℚ) ≤ score (key [65, 66, 67, 49, 50]) [65, 66, 67, 49, 50, 51] := by
  have hk : key [65, 66, 67, 49, 50] = [65, 66, 67, 49, 50] := by decide
  have hk2 : key [65, 66, 67, 49, 50, 51] = [65, 66, 67, 49, 50, 51] := by decide
  simp only [score, hk, hk2]
  rw [if_neg (by decide), if_neg (by decide), if_pos (by decide)]
  norm_num [List.length]

/-- C5 (amended): `score("ABC123", "ABC123") = 1`;
`score("ABC12", "ABC123") = 0.97 x (5/6) ≥ 0.8` (the prefix case, which is
below the claimed `0.9`); `score("XYZ", "ABC123") = 0 < 0.5`. -/
theorem c5_score_values :
    score (key [65, 66, 67, 49, 50, 51]) [65, 66, 67, 49, 50, 51] = 1
    ∧ (4 / 5 : ℚ) ≤ score (key [65, 66, 67, 49, 50]) [65, 66, 67, 49, 50, 51]
    ∧ score (key [88, 89, 90]) [65, 66, 67, 49, 50, 51] < 1 / 2 := by
  have hk1 : key [65, 66, 67, 49, 50, 51] = [65, 66, 67, 49, 50, 51] := by decide
  have hk2 : key [65, 66, 67, 49, 50] = [65, 66, 67, 49, 50] := by decide
  have hk3 : key [88, 89, 90] = [88, 89, 90] := by decide
  refine ⟨?_, ?_, ?_⟩
  · simp only [score, hk1]
    rw [if_neg (by decide)]
    simp
  · simp only [score, hk1, hk2]
    rw [if_neg (by decide), if_neg (by decide), if_pos (by decide)]
    norm_num [List.length]
  · simp only [score, hk1, hk3]
    rw [if_neg (by decide), if_neg (by decide), if_neg (by decide), if_neg (by decide),
      show editDistance [88, 89, 90] [65, 66, 67, 49, 50, 51] = 6 from by decide]
    norm_num [List.length]

/-! ## C2: auto-resolution (uniqueRoute) -/

/-- First candidate with maximal score (what the stable descending sort of
`pickUniqueRoute` puts in front). -/
def firstMax : List Candidate → Option Candidate
  | [] => none
  | c :: cs =>
    match firstMax cs with
    | none => some c
    | some m => if c.score < m.score then some m else some c

theorem insertionSort_descR_head (l : List Candidate) :
    (List.insertionSort descR l).head? = firstMax l := by
  induction l with
  | nil => rfl
  | cons c cs ih =>
    rw [List.insertionSort]
    rcases hs : List.insertionSort descR cs with _ | ⟨h, t⟩
    · rw [hs] at ih
      have hfm : firstMax cs = none := by rw [← ih]; rfl
      simp [firstMax, hfm, List.orderedInsert]
    · rw [hs] at ih
      have hfm : firstMax cs = some h := by rw [← ih]; rfl
      by_cases hch : h.score ≤ c.score
      · rw [List.orderedInsert, if_pos (show descR c h from hch)]
        simp [firstMax, hfm, not_lt.mpr hch]
      · rw [List.orderedInsert, if_neg (show ¬ descR c h from hch)]
        simp [firstMax, hfm, lt_of_not_le hch]

/-- Modelled from the spec (amended): auto-resolve to the best bucket head
(ties resolved models, then parts, then schematics) when its score is at
least 0.9 and exceeds the best score among the buckets' *second* candidates
(0 when none exists) by at least 0.12. -/
def specPickUnique (models parts schems : List Candidate) : Option Route :=
  match firstMax ([models.head?, parts.head?, schems.head?].filterMap id) with
  | none => none
  | some top =>
    let second := ((firstMax ([models.get? 1, parts.get? 1, schems.get? 1].filterMap id)).map
      Candidate.score).getD 0
    if (9 / 10 : ℚ) ≤ top.score ∧ (3 / 25 : ℚ) ≤ top.score - second then some top.route
    else none

/-- Modelled from the claim as stated: compare the single highest-scoring
candidate across all three buckets against the next-highest candidate
across all buckets. -/
def claimPickUnique (models parts schems : List Candidate) : Option Route :=
  match List.insertionSort descR (models ++ parts ++ schems) with
  | [] => none
  | [t] => if (9 / 10 : ℚ) ≤ t.score ∧ (3 / 25 : ℚ) ≤ t.score then some t.route else none
  | t :: u :: _ =>
    if (9 / 10 : ℚ) ≤ t.score ∧ (3 / 25 : ℚ) ≤ t.score - u.score then some t.route else none

theorem pick_eq_spec (models parts schems : List Candidate) :
    pickUniqueRoute models parts schems = specPickUnique models parts schems := by
  simp only [pickUniqueRoute, specPickUnique, insertionSort_descR_head]

/-- C2 (amended): for every query, catalog and limits, `uniqueRoute` is the
route of the highest-scoring candidate among the three buckets' heads (ties
broken models > parts > schematics) exactly when that head's score is
≥ 0.9 and it exceeds the highest score among the buckets' *second*
candidates (0 when absent) by at least 0.12; otherwise it is null.  The
runner-up is NOT the next-highest candidate across all buckets: a strong
second bucket head is ignored by the gap test. -/
theorem c2_uniqueroute_amended (query : LC) (db : JsDB) (lim : Limits) :
    (findBestCandidates query db lim).uniqueRoute =
      specPickUnique (findBestCandidates query db lim).models
        (findBestCandidates query db lim).parts
        (findBestCandidates query db lim).schematics := by
  by_cases h : key query = []
  · simp [findBestCandidates, h, specPickUnique, firstMax]
  · simp only [findBestCandidates, if_neg h]
    exact pick_eq_spec _ _ _

def jsModelAB : JsModel := ⟨[65, 66], [], [65, 66]⟩

def jsPartAB : JsPart := ⟨[65, 66], [65, 66], [], []⟩

def jsDBC2 : JsDB := ⟨[jsModelAB], [], [jsPartAB], [], [], [], []⟩

/-- C2 counterexample: with a model and a part both scoring 1.0 (in
different buckets), the code auto-routes to the model although the claim's
rule (gap to the next-highest candidate across all buckets, here 0 < 0.12)
requires `uniqueRoute = null`. -/
theorem c2_counterexample :
    (findBestCandidates [65, 66] jsDBC2 defaultLimits).uniqueRoute = some (.model [65, 66])
    ∧ claimPickUnique (findBestCandidates [65, 66] jsDBC2 defaultLimits).models
        (findBestCandidates [65, 66] jsDBC2 defaultLimits).parts
        (findBestCandidates [65, 66] jsDBC2 defaultLimits).schematics = none := by
  have hq : key [65, 66] = [65, 66] := by decide
  have hs1 : score [65, 66] [65, 66] = 1 := by
    simp only [score, hq]
    rw [if_neg (by decide)]
    simp
  have hfbc : findBestCandidates [65, 66] jsDBC2 defaultLimits =
      ⟨[⟨1, [65, 66], [], .model [65, 66]⟩], [⟨1, [65, 66], [], .part [65, 66]⟩], [],
        some (.model [65, 66]), 2⟩ := by
    simp only [findBestCandidates, jsDBC2, jsModelAB, jsPartAB, defaultLimits]
    rw [if_neg (by rw [hq]; decide)]
    simp only [List.filterMap_cons, List.filterMap_nil, List.isEmpty_cons, List.isEmpty_nil]
    norm_num [hs1, hq, pickUniqueRoute, List.insertionSort, List.orderedInsert, descR,
      List.filterMap, firstMax]
  rw [hfbc]
  constructor
  · rfl
  · norm_num [claimPickUnique, List.insertionSort, List.orderedInsert, descR]

/-! ## C4: the scoring function and Levenshtein distance

The chain proved here: the JS rolling-array DP (`editDistance`) computes
`lev` (the recursion with the head-equality short circuit, evaluated on
reversed inputs via the row invariant, then transported back with
`lev_rev`), and `lev` equals the textbook minimum-of-three `specLev`. -/

theorem lev_nil_left (b : LC) : lev [] b = b.length := by
  rw [lev]

theorem lev_nil_right (a : LC) : lev a [] = a.length := by
  cases a with
  | nil => rw [lev]
  | cons x xs =>
    rw [lev]
    simp

theorem lev_cons_cons (x y : Nat) (xs ys : LC) :
    lev (x :: xs) (y :: ys) =
      if x = y then lev xs ys
      else 1 + min (lev xs ys) (min (lev xs (y :: ys)) (lev (x :: xs) ys)) := by
  rw [lev]

theorem lev_single_left (x : Nat) (t : LC) :
    lev [x] t = if x ∈ t then t.length - 1 else max t.length 1 := by
  induction t with
  | nil => simp [lev_nil_right]
  | cons y t ih =>
    rw [lev_cons_cons, lev_nil_left, lev_nil_left]
    by_cases hxy : x = y
    · rw [if_pos hxy, if_pos (by rw [hxy]; exact List.mem_cons_self y t)]
      simp
    · rw [if_neg hxy, ih]
      by_cases hxt : x ∈ t
      · rw [if_pos hxt, if_pos (List.mem_cons_of_mem y hxt)]
        have h1 : 1 ≤ t.length := List.length_pos.mpr (List.ne_nil_of_mem hxt)
        simp only [List.length_cons]
        omega
      · rw [if_neg hxt, if_neg (by simp [hxy, hxt])]
        simp only [List.length_cons]
        omega

theorem lev_single_right (y : Nat) (t : LC) :
    lev t [y] = if y ∈ t then t.length - 1 else max t.length 1 := by
  induction t with
  | nil => simp [lev_nil_left]
  | cons z t ih =>
    rw [lev_cons_cons, lev_nil_right, lev_nil_right]
    by_cases hzy : z = y
    · rw [if_pos hzy, if_pos (by rw [← hzy]; exact List.mem_cons_self z t)]
      simp
    · rw [if_neg hzy, ih]
      by_cases hyt : y ∈ t
      · rw [if_pos hyt, if_pos (List.mem_cons_of_mem z hyt)]
        have h1 : 1 ≤ t.length := List.length_pos.mpr (List.ne_nil_of_mem hyt)
        simp only [List.length_cons]
        omega
      · rw [if_neg hyt, if_neg (show y ∉ z :: t by
          intro hmem
          rcases List.mem_cons.mp hmem with h | h
          · exact hzy h.symm
          · exact hyt h)]
        simp only [List.length_cons]
        omega

theorem min_collapse (X Y Z : Nat) : min (1 + X) (min (1 + Y) (1 + Z)) = 1 + min X (min Y Z) := by
  rw [Nat.add_min_add_left, Nat.add_min_add_left]

/-- The nine inner distances of a two-step Levenshtein expansion form the
same min-set whether grouped row-first or column-first. -/
theorem min9_shuffle (A B C D E F G P Q : Nat) :
    1 + min (1 + min A (min B C)) (min (1 + min D (min E F)) (1 + min G (min P Q))) =
    1 + min (1 + min A (min D G)) (min (1 + min B (min E P)) (1 + min C (min F Q))) := by
  rw [min_collapse, min_collapse]
  congr 2
  ac_rfl

set_option maxHeartbeats 1600000 in
/-- `lev` satisfies the same recurrence at the *ends* of both strings.  This
is what lets the row invariant of the DP (which consumes characters front to
back) be stated against reversed prefixes. -/
theorem lev_snoc (x y : Nat) :
    ∀ (n : Nat) (u v : LC), u.length + v.length ≤ n →
      lev (u ++ [x]) (v ++ [y]) =
        if x = y then lev u v
        else 1 + min (lev u v) (min (lev u (v ++ [y])) (lev (u ++ [x]) v)) := by
  intro n
  induction n with
  | zero =>
    intro u v h
    have hu : u = [] := List.length_eq_zero.mp (by omega)
    have hv : v = [] := List.length_eq_zero.mp (by omega)
    subst hu
    subst hv
    simp only [List.nil_append]
    rw [lev_cons_cons]
  | succ n ih =>
    intro u v h
    match u, v with
    | [], [] =>
      simp only [List.nil_append]
      rw [lev_cons_cons]
    | [], w :: ws =>
      simp only [List.nil_append, List.cons_append]
      rw [lev_single_left, lev_single_left, lev_nil_left, lev_nil_left]
      by_cases hB : x = y
      · subst hB
        rw [if_pos (by simp), if_pos rfl]
        simp only [List.length_cons, List.length_append, List.length_nil]
        omega
      · rw [if_neg hB]
        have hA : (x ∈ w :: (ws ++ [y])) ↔ (x ∈ w :: ws) := by
          simp only [List.mem_cons, List.mem_append, List.mem_singleton, List.not_mem_nil,
            or_false]
          constructor
          · rintro (hh | hh | hh)
            · exact Or.inl hh
            · exact Or.inr hh
            · exact absurd hh hB
          · rintro (hh | hh)
            · exact Or.inl hh
            · exact Or.inr (Or.inl hh)
        by_cases hC : x ∈ w :: ws
        · rw [if_pos (hA.mpr hC), if_pos hC]
          simp only [List.length_cons, List.length_append, List.length_nil]
          omega
        · rw [if_neg (fun hh => hC (hA.mp hh)), if_neg hC]
          simp only [List.length_cons, List.length_append, List.length_nil]
          omega
    | p :: ps, [] =>
      simp only [List.nil_append, List.cons_append]
      rw [lev_single_right, lev_single_right, lev_nil_right, lev_nil_right]
      by_cases hB : x = y
      · subst hB
        rw [if_pos (by simp), if_pos rfl]
        simp only [List.length_cons, List.length_append, List.length_nil]
        omega
      · rw [if_neg hB]
        have hA : (y ∈ p :: (ps ++ [x])) ↔ (y ∈ p :: ps) := by
          simp only [List.mem_cons, List.mem_append, List.mem_singleton, List.not_mem_nil,
            or_false]
          constructor
          · rintro (hh | hh | hh)
            · exact Or.inl hh
            · exact Or.inr hh
            · exact absurd hh.symm hB
          · rintro (hh | hh)
            · exact Or.inl hh
            · exact Or.inr (Or.inl hh)
        by_cases hC : y ∈ p :: ps
        · rw [if_pos (hA.mpr hC), if_pos hC]
          simp only [List.length_cons, List.length_append, List.length_nil]
          omega
        · rw [if_neg (fun hh => hC (hA.mp hh)), if_neg hC]
          simp only [List.length_cons, List.length_append, List.length_nil]
          omega
    | p :: ps, w :: ws =>
      simp only [List.cons_append]
      rw [lev_cons_cons]
      have h1 := ih ps ws (by simp only [List.length_cons] at h; omega)
      have h2 := ih ps (w :: ws) (by simp only [List.length_cons] at h ⊢; omega)
      have h3 := ih (p :: ps) ws (by simp only [List.length_cons] at h ⊢; omega)
      simp only [List.cons_append] at h2 h3
      by_cases hxy : x = y
      · simp only [if_pos hxy] at h1 h2 h3
        rw [if_pos hxy, h1, h2, h3, lev_cons_cons p w ps ws]
      · simp only [if_neg hxy] at h1 h2 h3
        rw [if_neg hxy, h1, h2, h3, lev_cons_cons p w ps ws, lev_cons_cons p w ps (ws ++ [y]),
          lev_cons_cons p w (ps ++ [x]) ws]
        by_cases hpw : p = w
        · simp only [if_pos hpw]
        · simp only [if_neg hpw]
          exact min9_shuffle _ _ _ _ _ _ _ _ _

theorem lev_rev_aux :
    ∀ (n : Nat) (a b : LC), a.length + b.length ≤ n → lev a.reverse b.reverse = lev a b := by
  intro n
  induction n with
  | zero =>
    intro a b h
    have ha : a = [] := List.length_eq_zero.mp (by omega)
    have hb : b = [] := List.length_eq_zero.mp (by omega)
    subst ha
    subst hb
    rfl
  | succ n ih =>
    intro a b h
    match a, b with
    | [], b =>
      rw [List.reverse_nil, lev_nil_left, lev_nil_left, List.length_reverse]
    | x :: xs, [] =>
      rw [List.reverse_nil, lev_nil_right, lev_nil_right, List.length_reverse]
    | x :: xs, y :: ys =>
      rw [List.reverse_cons, List.reverse_cons,
        lev_snoc x y (xs.reverse.length + ys.reverse.length) _ _ (le_refl _),
        ← List.reverse_cons y ys, ← List.reverse_cons x xs,
        ih xs ys (by simp only [List.length_cons] at h; omega),
        ih xs (y :: ys) (by simp only [List.length_cons] at h ⊢; omega),
        ih (x :: xs) ys (by simp only [List.length_cons] at h ⊢; omega),
        lev_cons_cons]

theorem lev_rev (a b : LC) : lev a.reverse b.reverse = lev a b :=
  lev_rev_aux (a.length + b.length) a b (le_refl _)

/-- The reversed prefixes of `b` (excluding the empty one) that index the
cells of one DP row, shortest first. -/
def dpStacks (rb : LC) : LC → List LC
  | [] => []
  | y :: ys => (y :: rb) :: dpStacks (y :: rb) ys

/-- The inner loop writes exactly the `lev` values of `c :: ra` against each
reversed prefix, given the previous row's `lev ra` values. -/
theorem levInner_spec (c : Nat) (ra : LC) :
    ∀ (ys rb : LC),
      levInner c (lev ra rb) (lev (c :: ra) rb) ys ((dpStacks rb ys).map (lev ra)) =
        (dpStacks rb ys).map (lev (c :: ra)) := by
  intro ys
  induction ys with
  | nil => intro rb; rfl
  | cons y ys ih =>
    intro rb
    simp only [dpStacks, List.map_cons, levInner]
    have hcur : (if c = y then lev ra rb
        else 1 + min (min (lev ra rb) (lev ra (y :: rb))) (lev (c :: ra) rb)) =
        lev (c :: ra) (y :: rb) := by
      rw [lev_cons_cons]
      by_cases hcy : c = y
      · rw [if_pos hcy, if_pos hcy]
      · rw [if_neg hcy, if_neg hcy, min_assoc]
    rw [hcur, ih (y :: rb)]

/-- One outer-loop step sends the row for `ra` to the row for `c :: ra`. -/
theorem nextRow_spec (c : Nat) (ra b : LC) :
    nextRow c b (lev ra [] :: (dpStacks [] b).map (lev ra)) =
      lev (c :: ra) [] :: (dpStacks [] b).map (lev (c :: ra)) := by
  simp only [nextRow]
  have hinner := levInner_spec c ra b []
  rw [lev_nil_right, lev_nil_right, List.length_cons] at hinner
  rw [lev_nil_right, lev_nil_right, List.length_cons, hinner]

theorem foldl_nextRow_spec (b : LC) :
    ∀ (xs ra : LC),
      xs.foldl (fun row c => nextRow c b row) (lev ra [] :: (dpStacks [] b).map (lev ra)) =
        lev (xs.reverseAux ra) [] :: (dpStacks [] b).map (lev (xs.reverseAux ra)) := by
  intro xs
  induction xs with
  | nil => intro ra; rfl
  | cons x xs ih =>
    intro ra
    rw [List.foldl_cons, nextRow_spec, List.reverseAux]
    exact ih (x :: ra)

theorem stacks_map_lev_nil :
    ∀ (ys rb : LC), (dpStacks rb ys).map (lev []) = List.range' (rb.length + 1) ys.length := by
  intro ys
  induction ys with
  | nil => intro rb; rfl
  | cons y ys ih =>
    intro rb
    simp only [dpStacks, List.map_cons, List.length_cons, List.range']
    rw [lev_nil_left, ih (y :: rb)]
    simp only [List.length_cons]

/-- The initial DP row `[0, 1, ..., n]` is the row for the empty prefix. -/
theorem init_row (b : LC) :
    List.range (b.length + 1) = lev [] [] :: (dpStacks [] b).map (lev []) := by
  rw [stacks_map_lev_nil b [], lev_nil_left, List.range_eq_range']
  rfl

theorem getLastD_stacks_map (ra : LC) :
    ∀ (ys rb : LC) (d : Nat), ys ≠ [] →
      ((dpStacks rb ys).map (lev ra)).getLastD d = lev ra (ys.reverseAux rb) := by
  intro ys
  induction ys with
  | nil => intro rb d h; exact absurd rfl h
  | cons y ys ih =>
    intro rb d h
    by_cases hys : ys = []
    · subst hys
      rfl
    · simp only [dpStacks, List.map_cons]
      rw [List.getLastD_cons, ih (y :: rb) _ hys, List.reverseAux]

/-- The JS rolling-array DP computes `lev`. -/
theorem editDistance_eq_lev (a b : LC) : editDistance a b = lev a b := by
  unfold editDistance
  by_cases ha : a.length = 0
  · rw [if_pos ha, List.length_eq_zero.mp ha, lev_nil_left]
  · rw [if_neg ha]
    by_cases hb : b.length = 0
    · rw [if_pos hb, List.length_eq_zero.mp hb, lev_nil_right]
    · rw [if_neg hb, init_row b, foldl_nextRow_spec b a [], List.getLastD_cons,
        getLastD_stacks_map _ b [] _ (fun hn => hb (by rw [hn]; rfl))]
      show lev a.reverse b.reverse = lev a b
      exact lev_rev a b

theorem specLev_nil_left (b : LC) : specLev [] b = b.length := by
  rw [specLev]

theorem specLev_nil_right (a : LC) : specLev a [] = a.length := by
  cases a with
  | nil => rw [specLev]
  | cons x xs =>
    rw [specLev]
    simp

theorem specLev_cons_cons (x y : Nat) (xs ys : LC) :
    specLev (x :: xs) (y :: ys) =
      min ((if x = y then 0 else 1) + specLev xs ys)
        (min (1 + specLev xs (y :: ys)) (1 + specLev (x :: xs) ys)) := by
  rw [specLev]

/-- Deleting the extra head character costs at most 1. -/
theorem specLev_cons_left_le (x : Nat) (xs b : LC) :
    specLev (x :: xs) b ≤ 1 + specLev xs b := by
  cases b with
  | nil =>
    rw [specLev_nil_right, specLev_nil_right, List.length_cons]
    omega
  | cons w bs =>
    rw [specLev_cons_cons]
    exact le_trans (min_le_right _ _) (min_le_left _ _)

theorem specLev_cons_right_le (w : Nat) (a bs : LC) :
    specLev a (w :: bs) ≤ 1 + specLev a bs := by
  cases a with
  | nil =>
    rw [specLev_nil_left, specLev_nil_left, List.length_cons]
    omega
  | cons x xs =>
    rw [specLev_cons_cons]
    exact le_trans (min_le_right _ _) (min_le_right _ _)

/-- Inserting a character into the second string changes the distance by at
most 1 (the direction not immediate from the recurrence). -/
theorem specLev_le_cons_right : ∀ (a b : LC) (c : Nat), specLev a b ≤ 1 + specLev a (c :: b) := by
  intro a
  induction a with
  | nil =>
    intro b c
    rw [specLev_nil_left, specLev_nil_left, List.length_cons]
    omega
  | cons x xs ih =>
    intro b c
    rw [specLev_cons_cons]
    have f1 := specLev_cons_left_le x xs b
    have f2 := ih b c
    have he : (0 ≤ if x = c then 0 else 1) ∧ (if x = c then 0 else 1) ≤ 1 := by
      split <;> omega
    omega

theorem specLev_le_cons_left : ∀ (b a : LC) (c : Nat), specLev a b ≤ 1 + specLev (c :: a) b := by
  intro b
  induction b with
  | nil =>
    intro a c
    rw [specLev_nil_right, specLev_nil_right, List.length_cons]
    omega
  | cons w bs ih =>
    intro a c
    rw [specLev_cons_cons]
    have f1 := specLev_cons_right_le w a bs
    have f2 := ih a c
    have he : (0 ≤ if c = w then 0 else 1) ∧ (if c = w then 0 else 1) ≤ 1 := by
      split <;> omega
    omega

/-- The head-equality short circuit used by the JS DP agrees with the
textbook minimum-of-three recurrence. -/
theorem lev_eq_specLev_aux :
    ∀ (n : Nat) (a b : LC), a.length + b.length ≤ n → lev a b = specLev a b := by
  intro n
  induction n with
  | zero =>
    intro a b h
    have ha : a = [] := List.length_eq_zero.mp (by omega)
    have hb : b = [] := List.length_eq_zero.mp (by omega)
    subst ha
    subst hb
    rw [lev_nil_left, specLev_nil_left]
  | succ n ih =>
    intro a b h
    match a, b with
    | [], b => rw [lev_nil_left, specLev_nil_left]
    | x :: xs, [] => rw [lev_nil_right, specLev_nil_right]
    | x :: xs, y :: ys =>
      rw [lev_cons_cons, specLev_cons_cons,
        ih xs ys (by simp only [List.length_cons] at h; omega),
        ih xs (y :: ys) (by simp only [List.length_cons] at h ⊢; omega),
        ih (x :: xs) ys (by simp only [List.length_cons] at h ⊢; omega)]
      by_cases hxy : x = y
      · rw [if_pos hxy, if_pos hxy]
        have b1 := specLev_le_cons_right xs ys y
        have b2 := specLev_le_cons_left ys xs x
        omega
      · rw [if_neg hxy, if_neg hxy]
        omega

theorem lev_eq_specLev (a b : LC) : lev a b = specLev a b :=
  lev_eq_specLev_aux (a.length + b.length) a b (le_refl _)

/-- Modelled from the spec (amended): the layered scoring function, written
with the textbook Levenshtein distance `specLev`, and returning 0 for an
empty normalized candidate (the amendment). -/
def specScore (qKey hayRaw : LC) : ℚ :=
  let hayKey := key hayRaw
  if hayKey = [] then 0
  else if hayKey = qKey then 1
  else if qKey.isPrefixOf hayKey then (97 / 100) * ((qKey.length : ℚ) / (hayKey.length : ℚ))
  else if qKey <:+: hayKey then (9 / 10) * ((qKey.length : ℚ) / (hayKey.length : ℚ))
  else (1 - (specLev qKey hayKey : ℚ) / (max qKey.length hayKey.length : ℚ)) * (85 / 100)

/-- Modelled from the claim as stated: the same layers but with no guard for
an empty normalized candidate. -/
def claimScore (qKey hayRaw : LC) : ℚ :=
  let hayKey := key hayRaw
  if hayKey = qKey then 1
  else if qKey.isPrefixOf hayKey then (97 / 100) * ((qKey.length : ℚ) / (hayKey.length : ℚ))
  else if qKey <:+: hayKey then (9 / 10) * ((qKey.length : ℚ) / (hayKey.length : ℚ))
  else (1 - (specLev qKey hayKey : ℚ) / (max qKey.length hayKey.length : ℚ)) * (85 / 100)

/-- C4 counterexample: for the empty query key and the candidate `"-"`
(whose normalized form is empty and hence equal to the query key), the code
returns 0 while the claimed case analysis requires 1.0. -/
theorem c4_counterexample : score [] [45] ≠ claimScore [] [45] := by
  have hk : key [45] = [] := by decide
  simp only [score, claimScore, hk]
  norm_num

/-- C4 (amended): `score` is layered exactly as specified -- 1.0 on equal
normalized forms, 0.97 x (len q / len c) on a prefix match, 0.90 x the same
ratio on a substring match, and otherwise
`(1 - levenshtein(q, c) / max(len q, len c)) x 0.85` where `levenshtein` is
the standard cost-1 insert/delete/substitute edit distance (which the JS
computes by an iterative rolling-array DP) -- except that an empty
normalized candidate always scores 0, even when it equals the query key. -/
theorem c4_score_layers (q c : LC) : score q c = specScore q c := by
  simp only [score, specScore, editDistance_eq_lev, lev_eq_specLev]

/-! ## C6: load-time discard invariant -/

theorem alookup_aset {α : Type} :
    ∀ (m : List (LC × α)) (k : LC) (v : α) (k2 : LC) (w : α),
      alookup (aset m k v) k2 = some w → w = v ∨ alookup m k2 = some w := by
  intro m
  induction m with
  | nil =>
    intro k v k2 w h
    simp only [aset, alookup] at h
    by_cases hk : k = k2
    · rw [if_pos hk] at h
      exact Or.inl (Option.some_inj.mp h).symm
    · rw [if_neg hk] at h
      exact absurd h (by simp)
  | cons kv rest ih =>
    rcases kv with ⟨k3, v3⟩
    intro k v k2 w h
    by_cases hk : k3 = k
    · simp only [aset, if_pos hk, alookup] at h
      by_cases hk2 : k = k2
      · rw [if_pos hk2] at h
        exact Or.inl (Option.some_inj.mp h).symm
      · rw [if_neg hk2] at h
        right
        simp only [alookup]
        rw [if_neg (by rw [hk]; exact hk2)]
        exact h
    · simp only [aset, if_neg hk, alookup] at h
      by_cases hk2 : k3 = k2
      · rw [if_pos hk2] at h
        right
        simp only [alookup]
        rw [if_pos hk2]
        exact h
      · rw [if_neg hk2] at h
        rcases ih k v k2 w h with hh | hh
        · exact Or.inl hh
        · right
          simp only [alookup]
          rw [if_neg hk2]
          exact hh

theorem alookup_foldl_mem {α : Type} (step : List (LC × α) → α → List (LC × α))
    (hstep : ∀ mp x k w, alookup (step mp x) k = some w → w = x ∨ alookup mp k = some w) :
    ∀ (src : List α) (mp : List (LC × α)) (k : LC) (w : α),
      alookup (List.foldl step mp src) k = some w → w ∈ src ∨ alookup mp k = some w := by
  intro src
  induction src with
  | nil =>
    intro mp k w h
    exact Or.inr h
  | cons x xs ih =>
    intro mp k w h
    rw [List.foldl_cons] at h
    rcases ih (step mp x) k w h with hh | hh
    · exact Or.inl (List.mem_cons_of_mem x hh)
    · rcases hstep mp x k w hh with hh2 | hh2
      · exact Or.inl (hh2 ▸ List.mem_cons_self x xs)
      · exact Or.inr hh2

theorem alookup_apush_self {α : Type} :
    ∀ (m : List (LC × List α)) (k : LC) (v : α),
      alookup (apush m k v) k = some ((alookup m k).getD [] ++ [v]) := by
  intro m
  induction m with
  | nil =>
    intro k v
    simp [apush, alookup]
  | cons kv rest ih =>
    rcases kv with ⟨k3, vs⟩
    intro k v
    by_cases hk : k3 = k
    · simp only [apush, if_pos hk, alookup]
      simp
    · simp only [apush, if_neg hk, alookup]
      exact ih k v

theorem alookup_apush_ne {α : Type} :
    ∀ (m : List (LC × List α)) (k : LC) (v : α) (k2 : LC), k2 ≠ k →
      alookup (apush m k v) k2 = alookup m k2 := by
  intro m
  induction m with
  | nil =>
    intro k v k2 hne
    simp only [apush, alookup]
    rw [if_neg (fun hh => hne hh.symm)]
  | cons kv rest ih =>
    rcases kv with ⟨k3, vs⟩
    intro k v k2 hne
    by_cases hk : k3 = k
    · subst hk
      simp only [apush, alookup, eq_self_iff_true, if_true]
      rw [if_neg (fun hh => hne hh.symm), if_neg (fun hh => hne hh.symm)]
    · simp only [apush, if_neg hk, alookup]
      by_cases hk2 : k3 = k2
      · rw [if_pos hk2, if_pos hk2]
      · rw [if_neg hk2, if_neg hk2]
        exact ih k v k2 hne

/-- Grouping via repeated `apush` collects, per key, exactly the source
elements with that key, in source order. -/
theorem alookup_foldl_apush {α : Type} (keyf : α → LC) :
    ∀ (src : List α) (mp : List (LC × List α)) (k : LC),
      (alookup (List.foldl (fun m x => apush m (keyf x) x) mp src) k).getD [] =
        (alookup mp k).getD [] ++ src.filter (fun x => keyf x = k) := by
  intro src
  induction src with
  | nil =>
    intro mp k
    simp
  | cons x xs ih =>
    intro mp k
    rw [List.foldl_cons, ih (apush mp (keyf x) x) k]
    by_cases hk : keyf x = k
    · subst hk
      rw [alookup_apush_self]
      simp only [Option.getD_some]
      rw [List.filter_cons_of_pos (by simp)]
      simp [List.append_assoc]
    · rw [alookup_apush_ne mp (keyf x) x k (fun hh => hk hh.symm),
        List.filter_cons_of_neg (by simp [hk])]

theorem alookup_mapVals {α : Type} (f : α → α) :
    ∀ (m : List (LC × α)) (k : LC), alookup (mapVals f m) k = (alookup m k).map f := by
  intro m
  induction m with
  | nil =>
    intro k
    rfl
  | cons kv rest ih =>
    rcases kv with ⟨k3, v3⟩
    intro k
    simp only [mapVals, List.map_cons, alookup]
    by_cases hk : k3 = k
    · rw [if_pos hk, if_pos hk]
      rfl
    · rw [if_neg hk, if_neg hk]
      exact ih k

/-- Every value stored by a fold of unconditional `aset`s over a source list
comes from that source list. -/
theorem aset_foldl_mem {α : Type} (keyf : α → LC) (src : List α) (k : LC) (w : α)
    (h : alookup (List.foldl (fun mp x => aset mp (keyf x) x) [] src) k = some w) :
    w ∈ src := by
  have hstep : ∀ (mp : List (LC × α)) (x : α) (k2 : LC) (w2 : α),
      alookup (aset mp (keyf x) x) k2 = some w2 → w2 = x ∨ alookup mp k2 = some w2 :=
    fun mp x k2 w2 h2 => alookup_aset mp (keyf x) x k2 w2 h2
  rcases alookup_foldl_mem _ hstep src [] k w h with hh | hh
  · exact hh
  · simp [alookup] at hh

/-- Same for guarded `aset`s. -/
theorem guarded_aset_foldl_mem {α : Type} (keyf : α → LC) (g : α → Bool)
    (src : List α) (k : LC) (w : α)
    (h : alookup (List.foldl (fun mp x => if g x then aset mp (keyf x) x else mp) [] src) k
      = some w) : w ∈ src := by
  have hstep : ∀ (mp : List (LC × α)) (x : α) (k2 : LC) (w2 : α),
      alookup (if g x then aset mp (keyf x) x else mp) k2 = some w2 →
        w2 = x ∨ alookup mp k2 = some w2 := by
    intro mp x k2 w2 h2
    split at h2
    · exact alookup_aset _ _ _ _ _ h2
    · exact Or.inr h2
  rcases alookup_foldl_mem _ hstep src [] k w h with hh | hh
  · exact hh
  · simp [alookup] at hh

/-- Every member of a value list of the grouped-then-sorted maps
(`schemsByModel`, `linkBySchematic`) comes from the source list. -/
theorem group_sorted_mem {α : Type} (keyf : α → LC) (r : α → α → Prop) [DecidableRel r]
    (src : List α) (k : LC) (ls : List α) (x : α)
    (hk : alookup (mapVals (List.insertionSort r)
      (List.foldl (fun m y => apush m (keyf y) y) [] src)) k = some ls)
    (hx : x ∈ ls) : x ∈ src := by
  rw [alookup_mapVals] at hk
  cases hg : alookup (List.foldl (fun m y => apush m (keyf y) y) [] src) k with
  | none =>
    rw [hg] at hk
    exact absurd hk (by simp)
  | some ls2 =>
    rw [hg] at hk
    have hls : ls = List.insertionSort r ls2 := (Option.some_inj.mp (by simpa using hk)).symm
    have hx2 : x ∈ ls2 := ((List.perm_insertionSort r ls2).mem_iff).mp (hls ▸ hx)
    have hchar := alookup_foldl_apush keyf src [] k
    rw [hg] at hchar
    simp only [Option.getD_some, alookup, Option.getD_none, List.nil_append] at hchar
    rw [hchar] at hx2
    exact (List.mem_filter.mp hx2).1

/-- Every value of `modelsById` (including id-alias entries) comes from the
models list. -/
theorem buildModelsById_mem (models : List Model) (k : LC) (w : Model)
    (h : alookup (buildModelsById models) k = some w) : w ∈ models := by
  unfold buildModelsById at h
  have hstep : ∀ (mp : List (LC × Model)) (x : Model) (k2 : LC) (w2 : Model),
      alookup ((fun mp m =>
        let mp1 := if !m.id.isEmpty then aset mp m.id m else mp
        if !m.modelNumber.isEmpty ∧ alookup mp1 m.modelNumber = none then
          aset mp1 m.modelNumber m
        else mp1) mp x) k2 = some w2 → w2 = x ∨ alookup mp k2 = some w2 := by
    intro mp x k2 w2 h2
    simp only at h2
    split at h2
    · split at h2
      · rcases alookup_aset _ _ _ _ _ h2 with h3 | h3
        · exact Or.inl h3
        · rcases alookup_aset _ _ _ _ _ h3 with h4 | h4
          · exact Or.inl h4
          · exact Or.inr h4
      · rcases alookup_aset _ _ _ _ _ h2 with h3 | h3
        · exact Or.inl h3
        · exact Or.inr h3
    · split at h2
      · rcases alookup_aset _ _ _ _ _ h2 with h3 | h3
        · exact Or.inl h3
        · exact Or.inr h3
      · exact Or.inr h2
  rcases alookup_foldl_mem _ hstep models [] k w h with hh | hh
  · exact hh
  · simp [alookup] at hh

/-- C6: after a load, every retained entity satisfies its identifier
invariant (models: id or modelNumber; schematics: id and modelId; links:
schematicId and partId; parts: id or number), and every entity reachable
through any of the eight indexes belongs to the corresponding collection --
so a row that violates its rule appears in no collection and in no index. -/
theorem c6_load_discard_invariant (mr sr lr pr : List Record) :
    (∀ m ∈ (loadFromRows mr sr lr pr).models, m.id ≠ [] ∨ m.modelNumber ≠ [])
    ∧ (∀ s ∈ (loadFromRows mr sr lr pr).schematics, s.id ≠ [] ∧ s.modelId ≠ [])
    ∧ (∀ l ∈ (loadFromRows mr sr lr pr).schematicParts, l.schematicId ≠ [] ∧ l.partId ≠ [])
    ∧ (∀ p ∈ (loadFromRows mr sr lr pr).parts, p.id ≠ [] ∨ p.number ≠ [])
    ∧ (∀ k m, alookup (loadFromRows mr sr lr pr).modelsById k = some m →
        m ∈ (loadFromRows mr sr lr pr).models)
    ∧ (∀ k m, alookup (loadFromRows mr sr lr pr).modelsByNumber k = some m →
        m ∈ (loadFromRows mr sr lr pr).models)
    ∧ (∀ k s, alookup (loadFromRows mr sr lr pr).schemsById k = some s →
        s ∈ (loadFromRows mr sr lr pr).schematics)
    ∧ (∀ k ls s, alookup (loadFromRows mr sr lr pr).schemsByModel k = some ls → s ∈ ls →
        s ∈ (loadFromRows mr sr lr pr).schematics)
    ∧ (∀ k p, alookup (loadFromRows mr sr lr pr).partsById k = some p →
        p ∈ (loadFromRows mr sr lr pr).parts)
    ∧ (∀ k p, alookup (loadFromRows mr sr lr pr).partsByIdLower k = some p →
        p ∈ (loadFromRows mr sr lr pr).parts)
    ∧ (∀ k p, alookup (loadFromRows mr sr lr pr).partsByNumber k = some p →
        p ∈ (loadFromRows mr sr lr pr).parts)
    ∧ (∀ k ls l, alookup (loadFromRows mr sr lr pr).linkBySchematic k = some ls → l ∈ ls →
        l ∈ (loadFromRows mr sr lr pr).schematicParts) := by
  refine ⟨?_, ?_, ?_, ?_, ?_, ?_, ?_, ?_, ?_, ?_, ?_, ?_⟩
  · intro m hm
    simp only [loadFromRows] at hm
    have h2 := (List.mem_filter.mp hm).2
    simpa [List.isEmpty_iff] using h2
  · intro s hs
    simp only [loadFromRows] at hs
    have h2 := (List.mem_filter.mp hs).2
    simpa [List.isEmpty_iff] using h2
  · intro l hl
    simp only [loadFromRows] at hl
    have h2 := (List.mem_filter.mp hl).2
    simpa [List.isEmpty_iff] using h2
  · intro p hp
    simp only [loadFromRows] at hp
    have h2 := (List.mem_filter.mp hp).2
    simpa [List.isEmpty_iff] using h2
  · intro k m hk
    simp only [loadFromRows] at hk ⊢
    exact buildModelsById_mem _ k m hk
  · intro k m hk
    simp only [loadFromRows] at hk ⊢
    unfold buildModelsByNumber at hk
    exact guarded_aset_foldl_mem (fun m : Model => normL m.modelNumber)
      (fun m : Model => !m.modelNumber.isEmpty) _ k m hk
  · intro k s hk
    simp only [loadFromRows] at hk ⊢
    exact aset_foldl_mem (fun s : Schematic => s.id) _ k s hk
  · intro k ls s hk hs
    simp only [loadFromRows] at hk ⊢
    exact group_sorted_mem (fun s : Schematic => s.modelId) schemLE _ k ls s hk hs
  · intro k p hk
    simp only [loadFromRows] at hk ⊢
    exact guarded_aset_foldl_mem (fun p : Part => p.id) (fun p : Part => !p.id.isEmpty)
      _ k p hk
  · intro k p hk
    simp only [loadFromRows] at hk ⊢
    exact guarded_aset_foldl_mem (fun p : Part => normL p.id) (fun p : Part => !p.id.isEmpty)
      _ k p hk
  · intro k p hk
    simp only [loadFromRows] at hk ⊢
    exact guarded_aset_foldl_mem (fun p : Part => normL p.number)
      (fun p : Part => !p.number.isEmpty) _ k p hk
  · intro k ls l hk hl
    simp only [loadFromRows] at hk ⊢
    exact group_sorted_mem (fun l : Link => l.schematicId) linkLE _ k ls l hk hl

def mrow1 : Record := [(kid, [77, 49])]

theorem c6_witness :
    ((⟨[77, 49], [], []⟩ : Model).id ≠ [] ∨ (⟨[77, 49], [], []⟩ : Model).modelNumber ≠ [])
    ∧ (⟨[77, 49], [], []⟩ : Model) ∈ (loadFromRows [mrow1] [] [] []).models :=
  ⟨(c6_load_discard_invariant [mrow1] [] [] []).1 ⟨[77, 49], [], []⟩ (by decide),
    (c6_load_discard_invariant [mrow1] [] [] []).2.2.2.2.1 [77, 49] ⟨[77, 49], [], []⟩
      (by decide)⟩

/-! ## C7: link ordering round-trip -/

theorem lcLeB_total : ∀ a b : LC, lcLeB a b = true ∨ lcLeB b a = true := by
  intro a
  induction a with
  | nil =>
    intro b
    exact Or.inl rfl
  | cons x as ih =>
    intro b
    cases b with
    | nil => exact Or.inr rfl
    | cons y bs =>
      rcases lt_trichotomy x y with h | h | h
      · left
        simp [lcLeB, h]
      · subst h
        rcases ih bs with hh | hh
        · left
          simp [lcLeB, hh]
        · right
          simp [lcLeB, hh]
      · right
        simp [lcLeB, h]

theorem lcLeB_trans : ∀ a b c : LC, lcLeB a b = true → lcLeB b c = true → lcLeB a c = true := by
  intro a
  induction a with
  | nil =>
    intro b c _ _
    rfl
  | cons x as ih =>
    intro b c hab hbc
    cases b with
    | nil => exact absurd hab (by simp [lcLeB])
    | cons y bs =>
      cases c with
      | nil => exact absurd hbc (by simp [lcLeB])
      | cons z cs =>
        simp only [lcLeB] at hab hbc ⊢
        by_cases hxy : x < y
        · by_cases hyz : y < z
          · rw [if_pos (lt_trans hxy hyz)]
          · by_cases hzy : z < y
            · rw [if_pos hxy] at hab
              rw [if_neg hyz, if_pos hzy] at hbc
              exact absurd hbc (by simp)
            · have hyz2 : y = z := by omega
              rw [if_pos (hyz2 ▸ hxy)]
        · by_cases hyx : y < x
          · rw [if_neg hxy, if_pos hyx] at hab
            exact absurd hab (by simp)
          · have hxy2 : x = y := by omega
            subst hxy2
            by_cases hyz : x < z
            · rw [if_pos hyz]
            · by_cases hzy : z < x
              · rw [if_neg hyz, if_pos hzy] at hbc
                exact absurd hbc (by simp)
              · rw [if_neg hxy, if_neg hyx] at hab
                rw [if_neg hyz, if_neg hzy] at hbc ⊢
                exact ih bs cs hab hbc

theorem lcLeB_antisymm : ∀ a b : LC, lcLeB a b = true → lcLeB b a = true → a = b := by
  intro a
  induction a with
  | nil =>
    intro b _ hba
    cases b with
    | nil => rfl
    | cons y bs => exact absurd hba (by simp [lcLeB])
  | cons x as ih =>
    intro b hab hba
    cases b with
    | nil => exact absurd hab (by simp [lcLeB])
    | cons y bs =>
      simp only [lcLeB] at hab hba
      by_cases hxy : x < y
      · rw [if_neg (by omega), if_pos hxy] at hba
        exact absurd hba (by simp)
      · by_cases hyx : y < x
        · rw [if_neg hxy, if_pos hyx] at hab
          exact absurd hab (by simp)
        · have hxy2 : x = y := by omega
          subst hxy2
          rw [if_neg hxy, if_neg hyx] at hab hba
          rw [ih bs hab hba]

theorem linkLE_total (a b : Link) : linkLE a b ∨ linkLE b a := by
  unfold linkLE
  rcases lt_trichotomy a.order b.order with h | h | h
  · exact Or.inl (Or.inl h)
  · rcases lt_trichotomy a.diagramNo b.diagramNo with h2 | h2 | h2
    · exact Or.inl (Or.inr ⟨h, Or.inl h2⟩)
    · rcases lcLeB_total a.partId b.partId with h3 | h3
      · exact Or.inl (Or.inr ⟨h, Or.inr ⟨h2, h3⟩⟩)
      · exact Or.inr (Or.inr ⟨h.symm, Or.inr ⟨h2.symm, h3⟩⟩)
    · exact Or.inr (Or.inr ⟨h.symm, Or.inl h2⟩)
  · exact Or.inr (Or.inl h)

theorem linkLE_trans (a b c : Link) (hab : linkLE a b) (hbc : linkLE b c) : linkLE a c := by
  unfold linkLE at hab hbc ⊢
  rcases hab with h | ⟨he, hab2⟩
  · rcases hbc with h2 | ⟨he2, _⟩
    · exact Or.inl (lt_trans h h2)
    · exact Or.inl (he2 ▸ h)
  · rcases hbc with h2 | ⟨he2, hbc2⟩
    · exact Or.inl (he ▸ h2)
    · refine Or.inr ⟨he.trans he2, ?_⟩
      rcases hab2 with h3 | ⟨he3, hab3⟩
      · rcases hbc2 with h4 | ⟨he4, _⟩
        · exact Or.inl (lt_trans h3 h4)
        · exact Or.inl (he4 ▸ h3)
      · rcases hbc2 with h4 | ⟨he4, hbc4⟩
        · exact Or.inl (he3 ▸ h4)
        · exact Or.inr ⟨he3.trans he4, lcLeB_trans _ _ _ hab3 hbc4⟩

theorem linkLE_antisymm_keys (a b : Link) (hab : linkLE a b) (hba : linkLE b a) :
    a.order = b.order ∧ a.diagramNo = b.diagramNo ∧ a.partId = b.partId := by
  unfold linkLE at hab hba
  rcases hab with h | ⟨he, hab2⟩
  · rcases hba with h2 | ⟨he2, _⟩
    · exact absurd (lt_trans h h2) (lt_irrefl _)
    · exact absurd (he2 ▸ h) (lt_irrefl _)
  · rcases hba with h2 | ⟨he2, hba2⟩
    · exact absurd (he ▸ h2) (lt_irrefl _)
    · refine ⟨he, ?_⟩
      rcases hab2 with h3 | ⟨he3, hab3⟩
      · rcases hba2 with h4 | ⟨he4, _⟩
        · exact absurd (lt_trans h3 h4) (lt_irrefl _)
        · exact absurd (he4 ▸ h3) (lt_irrefl _)
      · rcases hba2 with h4 | ⟨he4, hba4⟩
        · exact absurd (he3 ▸ h4) (lt_irrefl _)
        · exact ⟨he3, lcLeB_antisymm _ _ hab3 hba4⟩

instance : IsTotal Link linkLE := ⟨linkLE_total⟩

instance : IsTrans Link linkLE := ⟨linkLE_trans⟩

/-- A sorted list is determined by its multiset when ties only occur
between equal elements. -/
theorem sorted_perm_eq_of_antisymm {α : Type} {r : α → α → Prop} :
    ∀ (l1 l2 : List α), l1.Perm l2 → l1.Sorted r → l2.Sorted r →
      (∀ a ∈ l1, ∀ b ∈ l1, r a b → r b a → a = b) → l1 = l2 := by
  intro l1
  induction l1 with
  | nil =>
    intro l2 hp _ _ _
    exact hp.nil_eq
  | cons a t1 ih =>
    intro l2 hp hs1 hs2 hanti
    cases l2 with
    | nil => exact absurd hp.eq_nil (List.cons_ne_nil a t1)
    | cons b t2 =>
      by_cases hab : a = b
      · subst hab
        have ht := ih t2 hp.cons_inv hs1.of_cons hs2.of_cons
          (fun x hx y hy hr1 hr2 =>
            hanti x (List.mem_cons_of_mem a hx) y (List.mem_cons_of_mem a hy) hr1 hr2)
        rw [ht]
      · have hain : a ∈ b :: t2 := hp.subset (List.mem_cons_self a t1)
        have hbin : b ∈ a :: t1 := hp.symm.subset (List.mem_cons_self b t2)
        have ha2 : a ∈ t2 := by
          rcases List.mem_cons.mp hain with h | h
          · exact absurd h hab
          · exact h
        have hb1 : b ∈ t1 := by
          rcases List.mem_cons.mp hbin with h | h
          · exact absurd h.symm hab
          · exact h
        have hr1 : r a b := (List.rel_of_sorted_cons hs1) b hb1
        have hr2 : r b a := (List.rel_of_sorted_cons hs2) a ha2
        exact absurd (hanti a (List.mem_cons_self a t1) b (List.mem_cons_of_mem a hb1) hr1 hr2)
          hab

/-- Lookup into a grouped-then-sorted map is the sorted filter of the
source. -/
theorem mapVals_sort_group {α : Type} (keyf : α → LC) (r : α → α → Prop) [DecidableRel r]
    (src : List α) (k : LC) :
    (alookup (mapVals (List.insertionSort r)
      (List.foldl (fun m y => apush m (keyf y) y) [] src)) k).getD [] =
      List.insertionSort r (src.filter (fun x => keyf x = k)) := by
  rw [alookup_mapVals]
  have hchar := alookup_foldl_apush keyf src [] k
  simp only [alookup, Option.getD_none, List.nil_append] at hchar
  cases hg : alookup (List.foldl (fun m y => apush m (keyf y) y) [] src) k with
  | none =>
    rw [hg] at hchar
    simp only [Option.getD_none] at hchar
    simp [← hchar, List.insertionSort]
  | some ls2 =>
    rw [hg] at hchar
    simp only [Option.getD_some] at hchar
    rw [hchar]
    rfl

/-- Ascending `(order, diagramNo, partId)` on the joined result rows. -/
def plLE (p q : PartLine) : Prop :=
  p.order < q.order ∨ (p.order = q.order ∧ (p.diagramNo < q.diagramNo ∨
    (p.diagramNo = q.diagramNo ∧ lcLeB p.partId q.partId = true)))

/-- C7: for every schematic id, `listPartsForSchematic` returns the
schematic's links in ascending `(order, diagramNo, partId)` order, and the
result is independent of the order of the raw link-source rows. -/
theorem c7_link_order (mr sr pr lr lr2 : List Record) (sid : LC) (hperm : lr.Perm lr2) :
    listPartsForSchematic (loadFromRows mr sr lr pr) sid =
      listPartsForSchematic (loadFromRows mr sr lr2 pr) sid
    ∧ List.Pairwise plLE (listPartsForSchematic (loadFromRows mr sr lr pr) sid) := by
  unfold listPartsForSchematic
  simp only [loadFromRows]
  rw [mapVals_sort_group (fun l : Link => l.schematicId) linkLE,
    mapVals_sort_group (fun l : Link => l.schematicId) linkLE]
  have hperm2 :
      ((((lr.map toLink).filter
        (fun l => !l.schematicId.isEmpty && !l.partId.isEmpty)).filter
          (fun x => x.schematicId = sid))).Perm
        ((((lr2.map toLink).filter
          (fun l => !l.schematicId.isEmpty && !l.partId.isEmpty)).filter
            (fun x => x.schematicId = sid))) :=
    ((hperm.map toLink).filter _).filter _
  have hsorted1 := List.sorted_insertionSort linkLE
    (((lr.map toLink).filter
      (fun l => !l.schematicId.isEmpty && !l.partId.isEmpty)).filter
        (fun x => x.schematicId = sid))
  have hsorted2 := List.sorted_insertionSort linkLE
    (((lr2.map toLink).filter
      (fun l => !l.schematicId.isEmpty && !l.partId.isEmpty)).filter
        (fun x => x.schematicId = sid))
  have hanti : ∀ a ∈ List.insertionSort linkLE
      (((lr.map toLink).filter
        (fun l => !l.schematicId.isEmpty && !l.partId.isEmpty)).filter
          (fun x => x.schematicId = sid)),
      ∀ b ∈ List.insertionSort linkLE
        (((lr.map toLink).filter
          (fun l => !l.schematicId.isEmpty && !l.partId.isEmpty)).filter
            (fun x => x.schematicId = sid)),
      linkLE a b → linkLE b a → a = b := by
    intro a ha b hb hrab hrba
    have ha2 := (List.perm_insertionSort linkLE _).subset ha
    have hb2 := (List.perm_insertionSort linkLE _).subset hb
    have hsa : a.schematicId = sid := of_decide_eq_true (List.mem_filter.mp ha2).2
    have hsb : b.schematicId = sid := of_decide_eq_true (List.mem_filter.mp hb2).2
    obtain ⟨ho, hd, hp2⟩ := linkLE_antisymm_keys a b hrab hrba
    cases a
    cases b
    simp only [Link.mk.injEq]
    simp only at ho hd hp2 hsa hsb
    exact ⟨hsa.trans hsb.symm, hd, ho, hp2⟩
  have heq := sorted_perm_eq_of_antisymm _ _
    ((List.perm_insertionSort linkLE _).trans
      (hperm2.trans (List.perm_insertionSort linkLE _).symm))
    hsorted1 hsorted2 hanti
  constructor
  · rw [heq]
  · refine List.Pairwise.map _ ?_ hsorted1
    intro a b hab
    unfold linkLE at hab
    unfold plLE
    exact hab

def c7r1 : Record :=
  [(kschematicid, [83, 49]), (korder, [50]), (kdiagramno, [49]), (kpartid, [80, 49])]

def c7r2 : Record :=
  [(kschematicid, [83, 49]), (korder, [49]), (kdiagramno, [49]), (kpartid, [80, 50])]

def c7r3 : Record :=
  [(kschematicid, [83, 49]), (korder, [49]), (kdiagramno, [50]), (kpartid, [80, 51])]

theorem c7_witness :
    listPartsForSchematic (loadFromRows [] [] [c7r1, c7r2, c7r3] []) [83, 49] =
      listPartsForSchematic (loadFromRows [] [] [c7r3, c7r1, c7r2] []) [83, 49]
    ∧ List.Pairwise plLE
      (listPartsForSchematic (loadFromRows [] [] [c7r1, c7r2, c7r3] []) [83, 49]) :=
  c7_link_order [] [] [] [c7r1, c7r2, c7r3] [c7r3, c7r1, c7r2] [83, 49] (by decide)

end Ecomm
